import Mathlib

/-!
Verification development for the Memoir plugin core (memories, chunk tree,
search compiler, keyword detector, message tracker, migrations).

Each definition is a shallow embedding of the corresponding TypeScript
function; database tables are embedded as lists of row structures kept in
rowid (insertion) order, SQL `WHERE`/`ORDER BY` clauses become list
filters and sorts, and JavaScript `Date.now()` / freshly minted ids are
passed in as explicit parameters.
-/

namespace Memoir

/-- Chunk lifecycle status (column `status` of table `chunks`). -/
inductive ChunkStatus where
  | active
  | compacted
  | archived
deriving DecidableEq, Repr

/-- Message role (user or assistant). -/
inductive Role where
  | user
  | assistant
deriving DecidableEq, Repr

/-- Kind tag of a message part (text, tool, file or reasoning). -/
inductive PartKind where
  | text
  | tool
  | file
  | reasoning
deriving DecidableEq, Repr

/-- A message part as it exists at runtime (and hence in persisted JSON).
`pId` embeds the optional `_partId` property that `MessageTracker.addPart`
attaches to part objects; it is `none` for parts that never went through
`addPart`.  `JSON.stringify` serialises the property whenever present, so
the field is part of the persisted value. -/
structure ChunkMessagePart where
  kind : PartKind
  text : Option String := none
  tool : Option String := none
  output : Option String := none
  pId : Option String := none
deriving DecidableEq, Repr

/-- A message stored in chunk content (also the in-memory tracked
message record, which has the identical fields). -/
structure ChunkMessage where
  id : String
  role : Role
  parts : List ChunkMessagePart
  timestamp : Nat
deriving DecidableEq, Repr

/-- Derived metadata of a chunk content envelope. -/
structure ChunkMetadata where
  tools_used : Option (List String) := none
  files_modified : Option (List String) := none
deriving DecidableEq, Repr

/-- The JSON envelope stored in the `content` column of `chunks`. -/
structure ChunkContent where
  messages : List ChunkMessage
  metadata : ChunkMetadata
deriving DecidableEq, Repr

/-- A row of the `chunks` table. -/
structure ChunkRow where
  id : String
  sessionId : String
  parentId : Option String
  depth : Nat
  childRefs : Option (List String)
  content : ChunkContent
  summary : Option String
  status : ChunkStatus
  createdAt : Nat
  finalizedAt : Option Nat
  compactedAt : Option Nat
deriving DecidableEq, Repr

/-- The `chunks` table, in rowid order. -/
abbrev ChunkDb := List ChunkRow

/-- Embeds `SELECT * FROM chunks WHERE id = ?` (first row; ids are unique). -/
def lookupChunk (db : ChunkDb) (id : String) : Option ChunkRow :=
  db.find? (fun r => r.id = id)

/-- Embeds `Math.max` over a list of naturals (used on a non-empty list). -/
def listMax (l : List Nat) : Nat :=
  l.foldr Nat.max 0

/-- Embeds `UPDATE chunks SET ... WHERE id = ?`: applies `f` to every row whose id
matches. -/
def updateWhereId (db : ChunkDb) (id : String) (f : ChunkRow → ChunkRow) : ChunkDb :=
  db.map (fun r => if r.id = id then f r else r)

/-- Result record of `compactChunks`. -/
structure CompactResult where
  summaryChunk : ChunkRow
  compactedChunks : List ChunkRow
deriving DecidableEq, Repr

/-- The row inserted for the new summary chunk:
`INSERT INTO chunks (id, session_id, parent_id, depth, child_refs, content,
summary, status, created_at) VALUES (?, ?, NULL, ?, ?, ?, ?, active, ?)`
with `child_refs = JSON.stringify(chunkIds)` and empty content. -/
def summaryRow (sessionId : String) (chunkIds : List String) (summary : String)
    (summaryId : String) (now : Nat) (summaryDepth : Nat) : ChunkRow :=
  { id := summaryId
    sessionId := sessionId
    parentId := none
    depth := summaryDepth
    childRefs := some chunkIds
    content := { messages := [], metadata := {} }
    summary := some summary
    status := .active
    createdAt := now
    finalizedAt := none
    compactedAt := none }

/-- The per-child update of `compactChunks`:
`UPDATE chunks SET parent_id = ?, status = compacted, compacted_at = ?
WHERE id = ?`. -/
def compactedUpdate (summaryId : String) (now : Nat) (r : ChunkRow) : ChunkRow :=
  { r with parentId := some summaryId, status := .compacted, compactedAt := some now }

/-- Shallow embedding of `compactChunks` (src/chunks/tree.ts).  The freshly
minted summary id and the `Date.now()/1000` timestamp are parameters.
Errors are surfaced as `Except.error` carrying the thrown message; the
original database is untouched on error (in the source the throw happens
before the transaction, and the transaction itself is atomic). -/
def compactChunks (db : ChunkDb) (sessionId : String) (chunkIds : List String)
    (summary : String) (summaryId : String) (now : Nat) :
    Except String (ChunkDb × CompactResult) :=
  if chunkIds = [] then
    .error ("Cannot compact empty chunk list")
  else
    let rows := db.filter (fun r => chunkIds.contains r.id)
    if rows.length ≠ chunkIds.length then
      let missingIds := chunkIds.filter (fun id => ! rows.any (fun r => r.id = id))
      .error ("Chunks not found: " ++ String.intercalate (", ") missingIds)
    else
      let maxDepth := listMax (rows.map (fun r => r.depth))
      let newRow := summaryRow sessionId chunkIds summary summaryId now (maxDepth + 1)
      let db1 := db ++ [newRow]
      let db2 := chunkIds.foldl
        (fun d cid => updateWhereId d cid (compactedUpdate summaryId now)) db1
      let summaryChunk := (lookupChunk db2 summaryId).getD newRow
      let compacted := db2.filter (fun r => chunkIds.contains r.id)
      .ok (db2, { summaryChunk := summaryChunk, compactedChunks := compacted })

/-- A row of `db` whose id occurs in `ids` is found by `lookupChunk` at its
own id, provided ids are unique in the table. -/
theorem lookupChunk_self (db : ChunkDb) (r : ChunkRow)
    (hnd : (db.map (fun r => r.id)).Nodup) (hr : r ∈ db) :
    lookupChunk db r.id = some r := by
  induction db with
  | nil => cases hr
  | cons a l ih =>
    simp only [List.map_cons, List.nodup_cons] at hnd
    rcases List.mem_cons.mp hr with h | h
    · subst h
      simp [lookupChunk, List.find?]
    · have hne : ¬ (a.id = r.id) := by
        intro he
        exact hnd.1 (he ▸ List.mem_map_of_mem (fun r => r.id) h)
      simpa [lookupChunk, List.find?, hne] using ih hnd.2 h

/-- Membership characterisation of a successful `lookupChunk`. -/
theorem lookupChunk_eq_some_iff (db : ChunkDb) (i : String) (r : ChunkRow)
    (hnd : (db.map (fun r => r.id)).Nodup) :
    lookupChunk db i = some r ↔ r ∈ db ∧ r.id = i := by
  constructor
  · intro h
    exact ⟨List.mem_of_find?_eq_some h, by simpa using List.find?_some h⟩
  · rintro ⟨hm, hid⟩
    subst hid
    exact lookupChunk_self db r hnd hm

theorem lookupChunk_isSome_iff (db : ChunkDb) (i : String) :
    (lookupChunk db i).isSome ↔ ∃ r ∈ db, r.id = i := by
  simp [lookupChunk, List.find?_isSome]

theorem lookupChunk_eq_none_iff (db : ChunkDb) (i : String) :
    lookupChunk db i = none ↔ ∀ r ∈ db, r.id ≠ i := by
  simp [lookupChunk, List.find?_eq_none]

/-- The rows fetched by `SELECT * FROM chunks WHERE id IN (ids)` are, up to
permutation, the rows obtained by resolving each id (ids assumed distinct,
table ids unique). -/
theorem fetch_perm_filterMap (db : ChunkDb) (ids : List String)
    (hnd : ids.Nodup) (hdbnd : (db.map (fun r => r.id)).Nodup) :
    List.Perm (db.filter (fun r => ids.contains r.id)) (ids.filterMap (lookupChunk db)) := by
  have hrowsnd : (db.filter (fun r => ids.contains r.id)).Nodup := by
    have : ((db.filter (fun r => ids.contains r.id)).map (fun r => r.id)).Nodup :=
      ((List.filter_sublist db).map (fun r => r.id)).nodup hdbnd
    exact this.of_map (fun r => r.id)
  have hfmnd : (ids.filterMap (lookupChunk db)).Nodup := by
    refine List.Nodup.filterMap ?_ hnd
    intro a a' r hra hra'
    have h1 : r.id = a := by simpa using List.find?_some hra
    have h2 : r.id = a' := by simpa using List.find?_some hra'
    exact h1 ▸ h2
  rw [List.perm_ext_iff_of_nodup hrowsnd hfmnd]
  intro r
  simp only [List.mem_filter, List.mem_filterMap]
  constructor
  · rintro ⟨hm, hc⟩
    refine ⟨r.id, by simpa using hc, lookupChunk_self db r hdbnd hm⟩
  · rintro ⟨i, hi, hl⟩
    have := (lookupChunk_eq_some_iff db i r hdbnd).mp hl
    exact ⟨this.1, by simp [this.2, hi]⟩

/-- When every id resolves, the fetch returns exactly one row per distinct
id. -/
theorem fetch_length_of_all_found (db : ChunkDb) (ids : List String)
    (hnd : ids.Nodup) (hdbnd : (db.map (fun r => r.id)).Nodup)
    (hall : ∀ i ∈ ids, (lookupChunk db i).isSome) :
    (db.filter (fun r => ids.contains r.id)).length = ids.length := by
  rw [(fetch_perm_filterMap db ids hnd hdbnd).length_eq]
  induction ids with
  | nil => rfl
  | cons a l ih =>
    have ha : (lookupChunk db a).isSome := hall a (by simp)
    obtain ⟨r, hr⟩ := Option.isSome_iff_exists.mp ha
    simp only [List.filterMap_cons, hr, List.length_cons]
    rw [ih (List.nodup_cons.mp hnd).2 (fun i hi => hall i (by simp [hi]))]

/-- If some id does not resolve, the fetched row count is strictly below
the argument count, so the length check in `compactChunks` fires. -/
theorem fetch_length_lt_of_missing (db : ChunkDb) (ids : List String)
    (hdbnd : (db.map (fun r => r.id)).Nodup)
    (i0 : String) (hi0 : i0 ∈ ids) (hmiss : lookupChunk db i0 = none) :
    (db.filter (fun r => ids.contains r.id)).length < ids.length := by
  have hnone := (lookupChunk_eq_none_iff db i0).mp hmiss
  have hrowsnd : ((db.filter (fun r => ids.contains r.id)).map (fun r => r.id)).Nodup :=
    ((List.filter_sublist db).map (fun r => r.id)).nodup hdbnd
  have hsub : (db.filter (fun r => ids.contains r.id)).map (fun r => r.id)
      ⊆ ids.filter (fun j => j ≠ i0) := by
    intro x hx
    obtain ⟨r, hr, hrx⟩ := List.mem_map.mp hx
    have hmem := List.mem_filter.mp hr
    refine List.mem_filter.mpr ⟨by simpa [hrx] using hmem.2, ?_⟩
    have : r.id ≠ i0 := hnone r hmem.1
    simp [← hrx, this]
  have h1 : ((db.filter (fun r => ids.contains r.id)).map (fun r => r.id)).length
      ≤ (ids.filter (fun j => j ≠ i0)).length :=
    (hrowsnd.subperm hsub).length_le
  have h2 : (ids.filter (fun j => j ≠ i0)).length < ids.length := by
    refine List.length_filter_lt_length_iff_exists.mpr ⟨i0, hi0, by simp⟩
  calc (db.filter (fun r => ids.contains r.id)).length
      = ((db.filter (fun r => ids.contains r.id)).map (fun r => r.id)).length := by
        simp
    _ ≤ (ids.filter (fun j => j ≠ i0)).length := h1
    _ < ids.length := h2

/-- C1: with an empty id list `compactChunks` throws the empty-list error;
with a non-empty list containing an unresolved id it throws an error naming
each missing id.  In both cases the error is raised before the transaction,
so no chunk row is written (the embedding returns `Except.error` with the
database untouched). -/
theorem compactChunks_error_cases (db : ChunkDb) (sid : String) (ids : List String)
    (s sumId : String) (now : Nat)
    (hdbnd : (db.map (fun r => r.id)).Nodup) :
    compactChunks db sid [] s sumId now = .error ("Cannot compact empty chunk list")
    ∧ (ids ≠ [] → (∃ i ∈ ids, lookupChunk db i = none) →
        compactChunks db sid ids s sumId now =
          .error ("Chunks not found: " ++ String.intercalate (", ")
            (ids.filter (fun i => (lookupChunk db i).isNone)))) := by
  constructor
  · rfl
  · rintro hne ⟨i0, hi0, hmiss⟩
    have hlt := fetch_length_lt_of_missing db ids hdbnd i0 hi0 hmiss
    have hneq : (db.filter (fun r => ids.contains r.id)).length ≠ ids.length :=
      Nat.ne_of_lt hlt
    have hfilter : ids.filter
        (fun i => ! (db.filter (fun r => ids.contains r.id)).any (fun r => r.id = i))
        = ids.filter (fun i => (lookupChunk db i).isNone) := by
      refine List.filter_congr ?_
      intro j hj
      have hany : ((db.filter (fun r => ids.contains r.id)).any (fun r => r.id = j))
          = (lookupChunk db j).isSome := by
        rw [Bool.eq_iff_iff, List.any_eq_true, lookupChunk_isSome_iff]
        constructor
        · rintro ⟨r, hr, hrj⟩
          exact ⟨r, (List.mem_filter.mp hr).1, by simpa using hrj⟩
        · rintro ⟨r, hr, hrj⟩
          exact ⟨r, List.mem_filter.mpr ⟨hr, by simp [hrj, hj]⟩, by simp [hrj]⟩
      rw [hany]
      cases lookupChunk db j <;> rfl
    simp only [compactChunks, if_neg hne, if_pos hneq]
    rw [hfilter]

/-- With every id resolving but ids not distinct, the fetch returns one row
per distinct id, which is fewer than the argument count. -/
theorem fetch_length_lt_of_dup (db : ChunkDb) (ids : List String)
    (hdbnd : (db.map (fun r => r.id)).Nodup)
    (hdup : ¬ ids.Nodup)
    (hall : ∀ i ∈ ids, (lookupChunk db i).isSome) :
    (db.filter (fun r => ids.contains r.id)).length < ids.length := by
  have hdd : (db.filter (fun r => ids.contains r.id)).length
      = (db.filter (fun r => ids.dedup.contains r.id)).length := by
    congr 1
    refine List.filter_congr ?_
    intro r _
    simp [List.mem_dedup]
  have hlen := fetch_length_of_all_found db ids.dedup (List.nodup_dedup ids) hdbnd
    (fun i hi => hall i (List.mem_dedup.mp hi))
  have hle : ids.dedup.length ≤ ids.length := (List.dedup_sublist ids).length_le
  have hne : ids.dedup.length ≠ ids.length := by
    intro he
    exact hdup (((List.dedup_sublist ids).eq_of_length he) ▸ List.nodup_dedup ids)
  omega

/-- C10: `compactChunks` with a duplicated id throws the chunks-not-found
error naming no ids (the message is exactly `"Chunks not found: "`), even
though every listed id resolves; the throw happens before the transaction,
so nothing is written. -/
theorem compactChunks_duplicate_ids (db : ChunkDb) (sid : String) (ids : List String)
    (s sumId : String) (now : Nat)
    (hdbnd : (db.map (fun r => r.id)).Nodup)
    (hdup : ¬ ids.Nodup)
    (hall : ∀ i ∈ ids, (lookupChunk db i).isSome) :
    compactChunks db sid ids s sumId now = .error ("Chunks not found: ") := by
  have hne : ids ≠ [] := by
    intro h
    exact hdup (h ▸ List.nodup_nil)
  have hlt := fetch_length_lt_of_dup db ids hdbnd hdup hall
  have hneq : (db.filter (fun r => ids.contains r.id)).length ≠ ids.length :=
    Nat.ne_of_lt hlt
  have hfilter : ids.filter
      (fun i => ! (db.filter (fun r => ids.contains r.id)).any (fun r => r.id = i))
      = [] := by
    rw [List.filter_eq_nil_iff]
    intro j hj
    obtain ⟨r, hr⟩ := Option.isSome_iff_exists.mp (hall j hj)
    have hmem := (lookupChunk_eq_some_iff db j r hdbnd).mp hr
    have : r ∈ db.filter (fun r => ids.contains r.id) :=
      List.mem_filter.mpr ⟨hmem.1, by simp [hmem.2, hj]⟩
    have hany : (db.filter (fun r => ids.contains r.id)).any (fun r => r.id = j) = true :=
      List.any_eq_true.mpr ⟨r, this, by simp [hmem.2]⟩
    simpa using hany
  simp only [compactChunks, if_neg hne, if_pos hneq, hfilter]
  rfl

/-- Lookup through a single-id update, for id-preserving row transforms. -/
theorem lookupChunk_updateWhereId (db : ChunkDb) (i j : String) (f : ChunkRow → ChunkRow)
    (hf : ∀ r, (f r).id = r.id) :
    lookupChunk (updateWhereId db i f) j
      = if j = i then (lookupChunk db j).map f else lookupChunk db j := by
  induction db with
  | nil => by_cases h : j = i <;> simp [lookupChunk, updateWhereId, h]
  | cons a l ih =>
    have hbid : (if a.id = i then f a else a).id = a.id := by
      by_cases ha : a.id = i <;> simp [ha, hf]
    simp only [updateWhereId, List.map_cons, lookupChunk] at ih ⊢
    by_cases haj : a.id = j
    · rw [List.find?_cons_of_pos _ (by by_cases h : j = i <;> simp [h, hf, haj]),
        List.find?_cons_of_pos _ (by simp [haj])]
      by_cases hji : j = i
      · rw [if_pos hji, Option.map_some', if_pos (haj.trans hji)]
      · rw [if_neg hji, if_neg (fun h => hji (haj ▸ h))]
    · rw [List.find?_cons_of_neg _ (by simp [hbid, haj]),
        List.find?_cons_of_neg _ (by simp [haj])]
      exact ih

/-- Lookup through the per-id update loop of `compactChunks`. -/
theorem lookupChunk_foldl_update (ids : List String) (db : ChunkDb) (j : String)
    (f : ChunkRow → ChunkRow) (hf : ∀ r, (f r).id = r.id) (hnd : ids.Nodup) :
    lookupChunk (ids.foldl (fun d cid => updateWhereId d cid f) db) j
      = if j ∈ ids then (lookupChunk db j).map f else lookupChunk db j := by
  induction ids generalizing db with
  | nil => simp
  | cons a l ih =>
    simp only [List.foldl_cons]
    rw [ih (updateWhereId db a f) (List.nodup_cons.mp hnd).2]
    by_cases hja : j = a
    · subst hja
      have hnotl : j ∉ l := (List.nodup_cons.mp hnd).1
      simp [hnotl, lookupChunk_updateWhereId db j j f hf]
    · by_cases hjl : j ∈ l
      · simp [hjl, hja, lookupChunk_updateWhereId db a j f hf]
      · simp [hjl, hja, lookupChunk_updateWhereId db a j f hf,
          List.mem_cons]

/-- Lookup in a table extended by one appended row. -/
theorem lookupChunk_append_single (db : ChunkDb) (nr : ChunkRow) (j : String) :
    lookupChunk (db ++ [nr]) j
      = ((lookupChunk db j).orElse (fun _ => if nr.id = j then some nr else none)) := by
  induction db with
  | nil => by_cases h : nr.id = j <;> simp [lookupChunk, List.find?, h]
  | cons a l ih =>
    by_cases ha : a.id = j
    · simp [lookupChunk, List.find?, ha]
    · simpa [lookupChunk, List.find?, ha] using ih

/-- Invariance of `listMax` under permutation. -/
theorem listMax_perm (l₁ l₂ : List Nat) (h : List.Perm l₁ l₂) :
    listMax l₁ = listMax l₂ := by
  induction h with
  | nil => rfl
  | cons x _ ih =>
    simp only [listMax, List.foldr_cons] at ih ⊢
    rw [ih]
  | swap x y l =>
    simp only [listMax, List.foldr_cons]
    exact Nat.max_left_comm y x (List.foldr Nat.max 0 l)
  | trans _ _ ih₁ ih₂ => exact ih₁.trans ih₂

/-- C2: a successful compaction (distinct ids, all resolving, fresh summary
id) creates a summary chunk with depth `max(children) + 1`, null parent,
active status and `child_refs` equal to the id list in argument order, and
flips every listed chunk to `compacted` with the summary as parent and a
non-null `compacted_at`. -/
theorem compactChunks_success (db : ChunkDb) (sid : String) (ids : List String)
    (s sumId : String) (now : Nat)
    (hne : ids ≠ [])
    (hnd : ids.Nodup)
    (hdbnd : (db.map (fun r => r.id)).Nodup)
    (hall : ∀ i ∈ ids, (lookupChunk db i).isSome)
    (hfresh : lookupChunk db sumId = none)
    (hfresh2 : sumId ∉ ids) :
    ∃ db2 res, compactChunks db sid ids s sumId now = .ok (db2, res)
      ∧ res.summaryChunk.id = sumId
      ∧ res.summaryChunk.parentId = none
      ∧ res.summaryChunk.status = .active
      ∧ res.summaryChunk.childRefs = some ids
      ∧ res.summaryChunk.depth
          = listMax ((ids.filterMap (lookupChunk db)).map (fun r => r.depth)) + 1
      ∧ ∀ i ∈ ids, ∃ r₁, lookupChunk db2 i = some r₁
          ∧ r₁.status = .compacted ∧ r₁.parentId = some sumId
          ∧ r₁.compactedAt = some now := by
  have hlen := fetch_length_of_all_found db ids hnd hdbnd hall
  have hupd : ∀ r : ChunkRow, (compactedUpdate sumId now r).id = r.id := fun _ => rfl
  have hdb1sum : ∀ d : Nat, lookupChunk (db ++ [summaryRow sid ids s sumId now d]) sumId
      = some (summaryRow sid ids s sumId now d) := by
    intro d
    rw [lookupChunk_append_single, hfresh]
    simp [summaryRow]
  have hsum : ∀ d : Nat, lookupChunk
      (ids.foldl (fun d2 cid => updateWhereId d2 cid (compactedUpdate sumId now))
        (db ++ [summaryRow sid ids s sumId now d])) sumId
      = some (summaryRow sid ids s sumId now d) := by
    intro d
    rw [lookupChunk_foldl_update ids _ sumId _ hupd hnd, if_neg hfresh2, hdb1sum]
  unfold compactChunks
  rw [if_neg hne]
  simp only []
  rw [if_neg (not_not_intro hlen)]
  refine ⟨_, _, rfl, ?_, ?_, ?_, ?_, ?_, ?_⟩
  · simp only [hsum, Option.getD_some]
    rfl
  · simp only [hsum, Option.getD_some]
    rfl
  · simp only [hsum, Option.getD_some]
    rfl
  · simp only [hsum, Option.getD_some]
    rfl
  · simp only [hsum, Option.getD_some]
    have hperm := (fetch_perm_filterMap db ids hnd hdbnd).map (fun r => r.depth)
    show (summaryRow sid ids s sumId now _).depth = _
    rw [summaryRow]
    rw [listMax_perm _ _ hperm]
  · intro i hi
    obtain ⟨r, hr⟩ := Option.isSome_iff_exists.mp (hall i hi)
    have hdb1 : ∀ d : Nat, lookupChunk (db ++ [summaryRow sid ids s sumId now d]) i
        = some r := by
      intro d
      rw [lookupChunk_append_single, hr]
      rfl
    refine ⟨compactedUpdate sumId now r, ?_, rfl, rfl, rfl⟩
    rw [lookupChunk_foldl_update ids _ i _ hupd hnd, if_pos hi, hdb1]
    rfl

/-- A minimal concrete active chunk row used to instantiate theorems. -/
def sampleChunk (i : String) (d : Nat) : ChunkRow :=
  { id := i
    sessionId := "S"
    parentId := none
    depth := d
    childRefs := none
    content := { messages := [], metadata := {} }
    summary := none
    status := .active
    createdAt := 1
    finalizedAt := none
    compactedAt := none }

/-- Witness for `compactChunks_error_cases` at a concrete database. -/
theorem compactChunks_error_cases_witness :
    compactChunks [sampleChunk ("ch_a") 0] ("S") [] ("sum") ("ch_new") 7
      = .error ("Cannot compact empty chunk list")
    ∧ compactChunks [sampleChunk ("ch_a") 0] ("S") [("ch_a"), ("ch_b")]
        ("sum") ("ch_new") 7
      = .error ("Chunks not found: ch_b") := by
  have h := compactChunks_error_cases [sampleChunk ("ch_a") 0] ("S")
    [("ch_a"), ("ch_b")] ("sum") ("ch_new") 7 (by decide)
  refine ⟨h.1, ?_⟩
  have h2 := h.2 (by decide) ⟨("ch_b"), by decide, by decide⟩
  rw [h2]
  congr 1

/-- Witness for `compactChunks_success` at a concrete two-chunk database. -/
theorem compactChunks_success_witness :
    ∃ db2 res, compactChunks [sampleChunk ("ch_a") 0, sampleChunk ("ch_b") 2] ("S")
        [("ch_a"), ("ch_b")] ("sum") ("ch_new") 7 = .ok (db2, res)
      ∧ res.summaryChunk.id = ("ch_new")
      ∧ res.summaryChunk.parentId = none
      ∧ res.summaryChunk.status = .active
      ∧ res.summaryChunk.childRefs = some [("ch_a"), ("ch_b")]
      ∧ res.summaryChunk.depth
          = listMax (([("ch_a"), ("ch_b")].filterMap
              (lookupChunk [sampleChunk ("ch_a") 0, sampleChunk ("ch_b") 2])).map
              (fun r => r.depth)) + 1
      ∧ ∀ i ∈ [("ch_a"), ("ch_b")], ∃ r₁, lookupChunk db2 i = some r₁
          ∧ r₁.status = .compacted ∧ r₁.parentId = some ("ch_new")
          ∧ r₁.compactedAt = some 7 :=
  compactChunks_success [sampleChunk ("ch_a") 0, sampleChunk ("ch_b") 2] ("S")
    [("ch_a"), ("ch_b")] ("sum") ("ch_new") 7
    (by decide) (by decide) (by decide) (by decide) (by decide) (by decide)

/-- Witness for `compactChunks_duplicate_ids` at a concrete database. -/
theorem compactChunks_duplicate_ids_witness :
    compactChunks [sampleChunk ("ch_a") 0] ("S") [("ch_a"), ("ch_a")]
      ("sum") ("ch_new") 7 = .error ("Chunks not found: ") :=
  compactChunks_duplicate_ids [sampleChunk ("ch_a") 0] ("S") [("ch_a"), ("ch_a")]
    ("sum") ("ch_new") 7 (by decide) (by decide) (by decide)

/-- One recursive step of the ancestors CTE: join the rows produced in the
previous step against the table on `c.id = a.parent_id`, incrementing the
level counter. -/
def cteStep (db : ChunkDb) (frontier : List (ChunkRow × Nat)) : List (ChunkRow × Nat) :=
  frontier.flatMap (fun a => (db.filter (fun c => a.1.parentId = some c.id)).map
    (fun c => (c, a.2 + 1)))

/-- Fueled evaluation of the recursive CTE (`WITH RECURSIVE ... UNION ALL`):
emit the current working set, then recurse on the joined rows until the
working set is empty.  `db.length + 1` fuel is enough whenever the parent
chain terminates. -/
def cteRun (db : ChunkDb) : Nat → List (ChunkRow × Nat) → List (ChunkRow × Nat)
  | 0, _ => []
  | _ + 1, [] => []
  | fuel + 1, frontier => frontier ++ cteRun db fuel (cteStep db frontier)

/-- Insertion into a level-descending list (`ORDER BY level DESC`). -/
def insertLevelDesc (x : ChunkRow × Nat) : List (ChunkRow × Nat) → List (ChunkRow × Nat)
  | [] => [x]
  | y :: ys => if y.2 ≤ x.2 then x :: y :: ys else y :: insertLevelDesc x ys

/-- Embeds `ORDER BY level DESC` as an insertion sort. -/
def sortLevelDesc (l : List (ChunkRow × Nat)) : List (ChunkRow × Nat) :=
  l.foldr insertLevelDesc []

/-- Shallow embedding of `getAncestors` (src/chunks/tree.ts): the recursive
CTE seeded with the row matching `chunkId` at level 0, ordered by level
descending. -/
def getAncestors (db : ChunkDb) (chunkId : String) : List (ChunkRow × Nat) :=
  sortLevelDesc (cteRun db (db.length + 1)
    ((db.filter (fun r => r.id = chunkId)).map (fun r => (r, 0))))

/-- Iteratively following `parent_id` links from a chunk, with fuel. -/
def followChain (db : ChunkDb) : Nat → Option String → List ChunkRow
  | 0, _ => []
  | _ + 1, none => []
  | fuel + 1, some i =>
    match lookupChunk db i with
    | none => []
    | some r => r :: followChain db fuel r.parentId

/-- The parent chain starting at `id`. -/
def chainFrom (db : ChunkDb) (id : String) : List ChunkRow :=
  followChain db (db.length + 1) (some id)

/-- The chain genuinely reached a root (last parent link is null or
dangling), i.e. it was not cut off by fuel; rules out parent cycles, on
which the real recursive CTE would not terminate. -/
def chainClosed (db : ChunkDb) (l : List ChunkRow) : Bool :=
  match l.getLast? with
  | none => true
  | some r =>
    match r.parentId with
    | none => true
    | some p => (lookupChunk db p).isNone

theorem cteRun_nil (db : ChunkDb) (fuel : Nat) : cteRun db fuel [] = [] := by
  cases fuel <;> rfl

theorem followChain_none (db : ChunkDb) (fuel : Nat) : followChain db fuel none = [] := by
  cases fuel <;> rfl

/-- With unique ids, filtering the table on an id equals the optional
`lookupChunk` result. -/
theorem filter_id_eq_lookup_toList (db : ChunkDb) (i : String)
    (hnd : (db.map (fun r => r.id)).Nodup) :
    db.filter (fun r => r.id = i) = (lookupChunk db i).toList := by
  induction db with
  | nil => rfl
  | cons a l ih =>
    simp only [List.map_cons, List.nodup_cons] at hnd
    by_cases ha : a.id = i
    · have : l.filter (fun r => r.id = i) = [] := by
        rw [List.filter_eq_nil_iff]
        intro r hr
        simp only [decide_eq_true_eq]
        intro he
        exact hnd.1 (by rw [ha, ← he]; exact List.mem_map_of_mem (fun r => r.id) hr)
      simp [lookupChunk, List.find?, List.filter_cons, ha, this]
    · simpa [lookupChunk, List.find?, List.filter_cons, ha] using ih hnd.2

/-- The CTE evaluation on a singleton working set is the parent chain
paired with consecutive levels (same fuel on both sides). -/
theorem cteRun_eq_chain (db : ChunkDb) (hnd : (db.map (fun r => r.id)).Nodup) :
    ∀ (fuel : Nat) (i : String) (k : Nat),
    cteRun db fuel ((lookupChunk db i).toList.map (fun r => (r, k)))
      = (followChain db fuel (some i)).zip
          (List.range' k (followChain db fuel (some i)).length) := by
  intro fuel
  induction fuel with
  | zero => intro i k; rfl
  | succ n ih =>
    intro i k
    cases hl : lookupChunk db i with
    | none => simp [cteRun, followChain, hl]
    | some r =>
      cases hp : r.parentId with
      | none =>
        have hs : cteStep db [(r, k)] = [] := by
          simp [cteStep, hp]
        simp [cteRun, followChain, hl, hp, hs, cteRun_nil, followChain_none,
          List.range', List.zip]
      | some p =>
        have hs : cteStep db [(r, k)]
            = (lookupChunk db p).toList.map (fun c => (c, k + 1)) := by
          have : db.filter (fun c => r.parentId = some c.id)
              = db.filter (fun c => c.id = p) := by
            refine List.filter_congr ?_
            intro c _
            simp [hp, eq_comm]
          simp [cteStep, this, filter_id_eq_lookup_toList db p hnd]
        calc cteRun db (n + 1) ((some r).toList.map (fun r => (r, k)))
            = (r, k) :: cteRun db n (cteStep db [(r, k)]) := by
              simp [cteRun]
          _ = (r, k) :: cteRun db n ((lookupChunk db p).toList.map (fun c => (c, k + 1))) := by
              rw [hs]
          _ = (r, k) :: (followChain db n (some p)).zip
                (List.range' (k + 1) (followChain db n (some p)).length) := by
              rw [ih p (k + 1)]
          _ = (followChain db (n + 1) (some i)).zip
                (List.range' k (followChain db (n + 1) (some i)).length) := by
              simp [followChain, hl, hp, List.range', List.zip]

/-- Inserting an element whose level is below every element of the list
appends it at the end. -/
theorem insertLevelDesc_append (x : ChunkRow × Nat) (l : List (ChunkRow × Nat))
    (h : ∀ y ∈ l, x.2 < y.2) :
    insertLevelDesc x l = l ++ [x] := by
  induction l with
  | nil => rfl
  | cons y ys ih =>
    have hy : ¬ (y.2 ≤ x.2) := by
      have := h y (by simp)
      omega
    simp only [insertLevelDesc, if_neg hy, List.cons_append]
    rw [ih (fun z hz => h z (by simp [hz]))]

/-- Sorting a list with strictly increasing levels by level descending
reverses it. -/
theorem sortLevelDesc_of_ascending (l : List (ChunkRow × Nat))
    (h : l.Pairwise (fun a b => a.2 < b.2)) :
    sortLevelDesc l = l.reverse := by
  induction l with
  | nil => rfl
  | cons x xs ih =>
    have hp := List.pairwise_cons.mp h
    simp only [sortLevelDesc, List.foldr_cons] at *
    rw [ih hp.2, insertLevelDesc_append]
    · simp
    · intro y hy
      exact hp.1 y (List.mem_reverse.mp hy)

/-- A list zipped with consecutive levels has strictly increasing levels. -/
theorem zip_range'_pairwise (l : List ChunkRow) :
    ∀ k : Nat, (l.zip (List.range' k l.length)).Pairwise (fun a b => a.2 < b.2) := by
  induction l with
  | nil => intro k; simp
  | cons x xs ih =>
    intro k
    simp only [List.length_cons, List.range', List.zip_cons_cons]
    refine List.pairwise_cons.mpr ⟨?_, ih (k + 1)⟩
    intro y hy
    have := (List.of_mem_zip hy).2
    have hk : k + 1 ≤ y.2 := (List.mem_range'_1.mp this).1
    omega

/-- C8: `getAncestors` returns, for a present id, exactly the parent chain
from the chunk to the root in root-first order with level 0 at the start
chunk (the reverse of the chain annotated with ascending levels); for an
id absent from the table it returns the empty sequence.  The chain-closure
hypothesis states that the iterative ascent genuinely reaches a root,
which is also what makes the real recursive CTE terminate. -/
theorem getAncestors_spec (db : ChunkDb) (id : String)
    (hnd : (db.map (fun r => r.id)).Nodup) :
    (lookupChunk db id = none → getAncestors db id = [])
    ∧ (chainClosed db (chainFrom db id) = true →
        getAncestors db id
          = ((chainFrom db id).zip (List.range (chainFrom db id).length)).reverse) := by
  have hstart : db.filter (fun r => r.id = id) = (lookupChunk db id).toList :=
    filter_id_eq_lookup_toList db id hnd
  constructor
  · intro hmiss
    unfold getAncestors
    rw [hstart, hmiss]
    simp [cteRun_nil, sortLevelDesc]
  · intro _
    unfold getAncestors
    rw [hstart, cteRun_eq_chain db hnd (db.length + 1) id 0]
    rw [sortLevelDesc_of_ascending _ (zip_range'_pairwise _ 0)]
    rw [List.range_eq_range']
    rfl

/-- A concrete child chunk row pointing at a parent. -/
def sampleChild (i p : String) (d : Nat) : ChunkRow :=
  { sampleChunk i d with parentId := some p }

/-- Witness for `getAncestors_spec` on a concrete three-chunk chain
`ch_l into ch_m into ch_r`. -/
theorem getAncestors_spec_witness :
    getAncestors [sampleChunk ("ch_r") 0, sampleChild ("ch_m") ("ch_r") 0,
        sampleChild ("ch_l") ("ch_m") 0] ("ch_x") = []
    ∧ getAncestors [sampleChunk ("ch_r") 0, sampleChild ("ch_m") ("ch_r") 0,
          sampleChild ("ch_l") ("ch_m") 0] ("ch_l")
        = ((chainFrom [sampleChunk ("ch_r") 0, sampleChild ("ch_m") ("ch_r") 0,
              sampleChild ("ch_l") ("ch_m") 0] ("ch_l")).zip
            (List.range (chainFrom [sampleChunk ("ch_r") 0,
              sampleChild ("ch_m") ("ch_r") 0,
              sampleChild ("ch_l") ("ch_m") 0] ("ch_l")).length)).reverse :=
  ⟨(getAncestors_spec [sampleChunk ("ch_r") 0, sampleChild ("ch_m") ("ch_r") 0,
      sampleChild ("ch_l") ("ch_m") 0] ("ch_x") (by decide)).1 (by decide),
   (getAncestors_spec [sampleChunk ("ch_r") 0, sampleChild ("ch_m") ("ch_r") 0,
      sampleChild ("ch_l") ("ch_m") 0] ("ch_l") (by decide)).2 (by decide)⟩

/-- An embedded migration (version and description parsed from the
filename, SQL contents). -/
structure Migration where
  version : Nat
  filename : String
  sql : String
deriving DecidableEq, Repr

/-- A row of the per-subsystem tracking table `x_{subsystem}_migrations`. -/
structure AppliedRow where
  version : Nat
  filename : String
  applied_at : Nat
  checksum : String
deriving DecidableEq, Repr

/-- Database state visible to the migrator: the tracking table of the
subsystem (`none` while the table does not exist) and the ordered log of executed
migration SQL, standing in for all schema side effects. -/
structure MigState where
  table : Option (List AppliedRow)
  log : List String
deriving DecidableEq, Repr

/-- Embeds `CREATE TABLE IF NOT EXISTS x_{subsystem}_migrations ...`. -/
def ensureMigrationTable (s : MigState) : MigState :=
  { s with table := some (s.table.getD []) }

/-- Embeds `SELECT MAX(version) FROM x_{subsystem}_migrations`, with 0 when the
table is absent or empty (the source catches the missing-table error and
coalesces a NULL maximum with `?? 0`). -/
def getCurrentVersion (s : MigState) : Nat :=
  match s.table with
  | none => 0
  | some rows => listMax (rows.map (fun r => r.version))

/-- The tracking row inserted for an applied migration:
`INSERT INTO x_{subsystem}_migrations (version, filename, checksum)
VALUES (?, ?, ?)` with `applied_at` defaulting to `unixepoch()`. -/
def appliedRowOf (checksum : String → String) (now : Nat) (m : Migration) : AppliedRow :=
  { version := m.version
    filename := m.filename
    applied_at := now
    checksum := checksum m.sql }

/-- The migration loop of `runMigrations`: one transaction per pending
migration, executing its SQL and inserting the tracking row; a duplicate
version violates the `version INTEGER PRIMARY KEY` constraint and aborts
(the transaction rolls the step back, so the error state is discarded). -/
def applyLoop (checksum : String → String) (current now : Nat) :
    List Migration → MigState × Nat → Except String (MigState × Nat)
  | [], acc => .ok acc
  | m :: rest, (s, n) =>
    if m.version ≤ current then
      applyLoop checksum current now rest (s, n)
    else
      let rows := s.table.getD []
      if rows.any (fun r => r.version = m.version) then
        .error ("UNIQUE constraint failed: version")
      else
        applyLoop checksum current now rest
          (⟨some (rows ++ [appliedRowOf checksum now m]), s.log ++ [m.sql]⟩, n + 1)

/-- Shallow embedding of `runMigrations` (src/db/migrations/index.ts):
ensure the tracking table, read the current version once, then apply every
embedded migration with a greater version; returns the number applied.
`checksum` abstracts `computeChecksum` (Bun.hash in hex); `now` the
insertion timestamp default `unixepoch()`. -/
def runMigrations (checksum : String → String) (migs : List Migration)
    (s0 : MigState) (now : Nat) : Except String (MigState × Nat) :=
  let s := ensureMigrationTable s0
  applyLoop checksum (getCurrentVersion s) now migs (s, 0)

theorem listMax_append (a b : List Nat) :
    listMax (a ++ b) = Nat.max (listMax a) (listMax b) := by
  induction a with
  | nil => simp [listMax]
  | cons x xs ih =>
    simp only [listMax, List.foldr_cons, List.cons_append] at *
    rw [ih]
    exact (Nat.max_assoc x _ _).symm

theorem le_listMax_of_mem (x : Nat) (l : List Nat) (h : x ∈ l) : x ≤ listMax l := by
  induction l with
  | nil => cases h
  | cons y ys ih =>
    rcases List.mem_cons.mp h with rfl | h
    · simp [listMax, Nat.le_max_left]
    · simp only [listMax, List.foldr_cons]
      exact le_trans (ih h) (Nat.le_max_right _ _)

/-- Structure of a successful `applyLoop` run: the tracking table only
grows, and afterwards every processed migration version is bounded by
the starting current version or the final table maximum. -/
theorem applyLoop_ok (ck : String → String) (cur now : Nat) :
    ∀ (migs : List Migration) (rows : List AppliedRow) (lg : List String)
      (n : Nat) (s2 : MigState) (n2 : Nat),
    applyLoop ck cur now migs (⟨some rows, lg⟩, n) = .ok (s2, n2) →
    ∃ rows2 lg2, s2 = ⟨some rows2, lg2⟩
      ∧ listMax (rows.map (fun r => r.version)) ≤ listMax (rows2.map (fun r => r.version))
      ∧ ∀ m ∈ migs, m.version ≤ Nat.max cur (listMax (rows2.map (fun r => r.version))) := by
  intro migs
  induction migs with
  | nil =>
    intro rows lg n s2 n2 h
    simp only [applyLoop] at h
    cases h
    exact ⟨rows, lg, rfl, Nat.le_refl _, by simp⟩
  | cons m rest ih =>
    intro rows lg n s2 n2 h
    simp only [applyLoop, Option.getD_some] at h
    by_cases hv : m.version ≤ cur
    · rw [if_pos hv] at h
      obtain ⟨rows2, lg2, he, hle, hall⟩ := ih rows lg n s2 n2 h
      refine ⟨rows2, lg2, he, hle, ?_⟩
      intro m2 hm2
      rcases List.mem_cons.mp hm2 with rfl | hm2
      · exact le_trans hv (Nat.le_max_left _ _)
      · exact hall m2 hm2
    · rw [if_neg hv] at h
      by_cases hdup : rows.any (fun r => r.version = m.version)
      · rw [if_pos hdup] at h
        cases h
      · rw [if_neg hdup] at h
        obtain ⟨rows2, lg2, he, hle, hall⟩ := ih _ _ _ _ _ h
        have hmem : m.version ∈ (rows ++ [appliedRowOf ck now m]).map
            (fun r => r.version) := by
          simp [appliedRowOf]
        have h2 : listMax (rows.map (fun r => r.version))
            ≤ listMax ((rows ++ [appliedRowOf ck now m]).map (fun r => r.version)) := by
          rw [List.map_append, listMax_append]
          exact Nat.le_max_left _ _
        refine ⟨rows2, lg2, he, le_trans h2 hle, ?_⟩
        intro m2 hm2
        rcases List.mem_cons.mp hm2 with rfl | hm2
        · exact le_trans (le_trans (le_listMax_of_mem _ _ hmem) hle) (Nat.le_max_right _ _)
        · exact hall m2 hm2

/-- If no migration version exceeds the current version, the loop is a
no-op. -/
theorem applyLoop_noop (ck : String → String) (cur now : Nat) :
    ∀ (migs : List Migration) (s : MigState) (n : Nat),
    (∀ m ∈ migs, m.version ≤ cur) →
    applyLoop ck cur now migs (s, n) = .ok (s, n) := by
  intro migs
  induction migs with
  | nil => intro s n _; rfl
  | cons m rest ih =>
    intro s n hall
    simp only [applyLoop, if_pos (hall m (by simp))]
    exact ih s n (fun m2 hm2 => hall m2 (by simp [hm2]))

/-- C7: running `runMigrations` immediately after a successful run applies
0 further migrations and returns the database state (tracking table and
executed-SQL log) unchanged. -/
theorem runMigrations_idempotent (ck : String → String) (migs : List Migration)
    (s : MigState) (now now2 : Nat) (s1 : MigState) (n1 : Nat)
    (h : runMigrations ck migs s now = .ok (s1, n1)) :
    runMigrations ck migs s1 now2 = .ok (s1, 0) := by
  have hform : ensureMigrationTable s
      = ⟨some ((ensureMigrationTable s).table.getD []), s.log⟩ := by
    cases s with
    | mk t lg => cases t <;> rfl
  unfold runMigrations at h
  rw [hform] at h
  obtain ⟨rows2, lg2, he, hle, hall⟩ := applyLoop_ok ck _ now migs _ _ 0 s1 n1 h
  subst he
  have hall2 : ∀ m ∈ migs, m.version
      ≤ getCurrentVersion (⟨some rows2, lg2⟩ : MigState) := by
    intro m hm
    have h3 := hall m hm
    have h4 : getCurrentVersion
        (⟨some ((ensureMigrationTable s).table.getD []), s.log⟩ : MigState)
        = listMax ((((ensureMigrationTable s).table.getD [])).map (fun r => r.version)) := rfl
    rw [h4] at h3
    show m.version ≤ listMax (rows2.map (fun r => r.version))
    exact le_trans h3 (Nat.max_le.mpr ⟨hle, Nat.le_refl _⟩)
  have hens : ensureMigrationTable (⟨some rows2, lg2⟩ : MigState)
      = ⟨some rows2, lg2⟩ := rfl
  unfold runMigrations
  rw [hens]
  exact applyLoop_noop ck _ now2 migs _ 0 hall2

/-- Witness for `runMigrations_idempotent`: one migration applied from a
fresh database, then re-run. -/
theorem runMigrations_idempotent_witness :
    runMigrations (fun x => x) [⟨1, ("0001_initial.sql"), ("CREATE TABLE m")⟩]
      (⟨some [⟨1, ("0001_initial.sql"), 5, ("CREATE TABLE m")⟩],
        [("CREATE TABLE m")]⟩ : MigState) 9
      = .ok (⟨some [⟨1, ("0001_initial.sql"), 5, ("CREATE TABLE m")⟩],
          [("CREATE TABLE m")]⟩, 0) :=
  runMigrations_idempotent (fun x => x) [⟨1, ("0001_initial.sql"), ("CREATE TABLE m")⟩]
    (⟨none, []⟩ : MigState) 5 9
    (⟨some [⟨1, ("0001_initial.sql"), 5, ("CREATE TABLE m")⟩], [("CREATE TABLE m")]⟩) 1
    (by rfl)

/-- Insertion-ordered map semantics of a JavaScript `Map` with string
keys: `get` finds the entry, `set` replaces the value in place for an
existing key and appends otherwise. -/
def mapGet {α : Type} (m : List (String × α)) (k : String) : Option α :=
  (m.find? (fun p => p.1 = k)).map (fun p => p.2)

/-- Embeds `Map.set`: replace in place on an existing key, append otherwise. -/
def mapSet {α : Type} (m : List (String × α)) (k : String) (v : α) : List (String × α) :=
  if m.any (fun p => p.1 = k) then m.map (fun p => if p.1 = k then (k, v) else p)
  else m ++ [(k, v)]

/-- Replace the first element satisfying `p` by its image under `f`
(the `findIndex`-and-assign / `find`-and-mutate idiom). -/
def replaceFirst {α : Type} (p : α → Bool) (f : α → α) : List α → List α
  | [] => []
  | x :: xs => if p x then f x :: xs else x :: replaceFirst p f xs

/-- In-memory state of the `MessageTracker` (src/chunks/tracker.ts): the
per-session message buffers and per-session current chunk ids. -/
structure MessageTracker where
  sessions : List (String × List ChunkMessage)
  currentChunkIds : List (String × String)
deriving DecidableEq, Repr

/-- A fresh tracker. -/
def emptyTracker : MessageTracker := ⟨[], []⟩

/-- Embeds `getMessages`: the session buffer, or `[]` when absent. -/
def getMessages (t : MessageTracker) (sessionId : String) : List ChunkMessage :=
  (mapGet t.sessions sessionId).getD []

/-- Embeds `trackMessage`: upsert by message id — replace in place when an entry
with the same id exists, append otherwise. -/
def trackMessage (t : MessageTracker) (sessionId : String) (message : ChunkMessage) :
    MessageTracker :=
  let messages := getMessages t sessionId
  let messages2 :=
    if messages.any (fun m => m.id = message.id) then
      replaceFirst (fun m => m.id = message.id) (fun _ => message) messages
    else
      messages ++ [message]
  { t with sessions := mapSet t.sessions sessionId messages2 }

/-- Upsert of a part by its `_partId` within the part list of a message
(`addPart`): update the part carrying the id in place, else append; the
stored part is the given part with `_partId` attached. -/
def upsertPart (partId : String) (part : ChunkMessagePart)
    (parts : List ChunkMessagePart) : List ChunkMessagePart :=
  if parts.any (fun p => p.pId = some partId) then
    replaceFirst (fun p => p.pId = some partId)
      (fun _ => { part with pId := some partId }) parts
  else
    parts ++ [{ part with pId := some partId }]

/-- Embeds `addPart`: when the message is absent, create it with role
`assistant`, a `Date.now()` timestamp and the single tagged part;
otherwise upsert the part into the first message with that id. -/
def addPart (t : MessageTracker) (sessionId messageId partId : String)
    (part : ChunkMessagePart) (now : Nat) : MessageTracker :=
  let messages := getMessages t sessionId
  if messages.any (fun m => m.id = messageId) then
    let messages2 := replaceFirst (fun m => m.id = messageId)
      (fun m => { m with parts := upsertPart partId part m.parts }) messages
    { t with sessions := mapSet t.sessions sessionId messages2 }
  else
    let newMsg : ChunkMessage := ⟨messageId, .assistant, [{ part with pId := some partId }], now⟩
    { t with sessions := mapSet t.sessions sessionId (messages ++ [newMsg]) }

/-- Embeds `clearSession`: drop the session buffer and current chunk id. -/
def clearSession (t : MessageTracker) (sessionId : String) : MessageTracker :=
  ⟨t.sessions.filter (fun p => ! decide (p.1 = sessionId)),
   t.currentChunkIds.filter (fun p => ! decide (p.1 = sessionId))⟩

/-- Embeds `setCurrentChunkId`. -/
def setCurrentChunkId (t : MessageTracker) (sessionId chunkId : String) : MessageTracker :=
  { t with currentChunkIds := mapSet t.currentChunkIds sessionId chunkId }

/-- Embeds `getCurrentChunkId` (`?? null` becomes `Option`). -/
def getCurrentChunkId (t : MessageTracker) (sessionId : String) : Option String :=
  mapGet t.currentChunkIds sessionId

/-- Embeds `hasMessages`. -/
def hasMessages (t : MessageTracker) (sessionId : String) : Bool :=
  ! (getMessages t sessionId).isEmpty

theorem mapGet_mapSet {α : Type} (m : List (String × α)) (k : String) (v : α) :
    mapGet (mapSet m k v) k = some v := by
  induction m with
  | nil => simp [mapGet, mapSet, List.find?]
  | cons a rest ih =>
    by_cases hk : a.1 = k
    · have hany : (a :: rest).any (fun p => p.1 = k) = true := by simp [hk]
      simp [mapGet, mapSet, hany, List.find?, hk]
    · by_cases hany : rest.any (fun p => p.1 = k) = true
      · have hany2 : (a :: rest).any (fun p => p.1 = k) = true := by
          simp only [List.any_cons, hany, Bool.or_true]
        have ih2 : mapGet (List.map (fun p => if p.1 = k then (k, v) else p) rest) k
            = some v := by
          have h0 := ih
          rwa [mapSet, if_pos hany] at h0
        have hfa : (if a.1 = k then (k, v) else a) = a := if_neg hk
        rw [mapSet, if_pos hany2, List.map_cons, hfa]
        rw [mapGet, List.find?_cons_of_neg _ (by simpa using hk)]
        exact ih2
      · have hany2 : ¬ ((a :: rest).any (fun p => p.1 = k) = true) := by
          simp only [List.any_cons, Bool.or_eq_true]
          rintro (h | h)
          · exact hk (by simpa using h)
          · exact hany h
        have ih2 : mapGet (rest ++ [(k, v)]) k = some v := by
          have h0 := ih
          rwa [mapSet, if_neg hany] at h0
        rw [mapSet, if_neg hany2, List.cons_append]
        rw [mapGet, List.find?_cons_of_neg _ (by simpa using hk)]
        exact ih2

theorem replaceFirst_eq_set {α : Type} (p : α → Bool) (f : α → α) (l : List α)
    (h : l.any p = true) :
    ∃ i x, l.get? i = some x ∧ p x = true ∧ replaceFirst p f l = l.set i (f x) := by
  induction l with
  | nil => simp at h
  | cons a as ih =>
    by_cases ha : p a
    · exact ⟨0, a, rfl, ha, by simp [replaceFirst, ha]⟩
    · have h2 : as.any p = true := by simpa [ha] using h
      obtain ⟨i, x, hg, hp, he⟩ := ih h2
      exact ⟨i + 1, x, hg, hp, by simp [replaceFirst, ha, he]⟩

theorem map_replaceFirst {α β : Type} (g : α → β) (p : α → Bool) (f : α → α)
    (l : List α) (hf : ∀ x, p x = true → g (f x) = g x) :
    (replaceFirst p f l).map g = l.map g := by
  induction l with
  | nil => rfl
  | cons a as ih =>
    by_cases ha : p a
    · simp [replaceFirst, ha, hf a ha]
    · simp [replaceFirst, ha, ih]

theorem find?_replaceFirst {α : Type} (p : α → Bool) (f : α → α) (l : List α)
    (hp : ∀ x, p x = true → p (f x) = true) :
    (replaceFirst p f l).find? p = (l.find? p).map f := by
  induction l with
  | nil => rfl
  | cons a as ih =>
    by_cases ha : p a
    · simp [replaceFirst, ha, List.find?_cons_of_pos _ (hp a ha), List.find?_cons_of_pos _ ha]
    · simp only [replaceFirst, if_neg ha, List.find?_cons_of_neg _ ha]
      exact ih

theorem find?_append_single {α : Type} (p : α → Bool) (l : List α) (x : α) :
    (l ++ [x]).find? p = ((l.find? p).orElse (fun _ => if p x then some x else none)) := by
  induction l with
  | nil => by_cases h : p x <;> simp [List.find?, h]
  | cons a as ih =>
    by_cases ha : p a
    · simp [List.find?_cons_of_pos _ ha]
    · simpa [List.find?_cons_of_neg _ ha] using ih

/-- The function `trackMessage` writes back exactly the upserted buffer. -/
theorem getMessages_trackMessage (t : MessageTracker) (sid : String) (msg : ChunkMessage) :
    getMessages (trackMessage t sid msg) sid
      = if (getMessages t sid).any (fun m => m.id = msg.id)
        then replaceFirst (fun m => m.id = msg.id) (fun _ => msg) (getMessages t sid)
        else getMessages t sid ++ [msg] := by
  unfold trackMessage
  show (mapGet (mapSet t.sessions sid _) sid).getD [] = _
  rw [mapGet_mapSet]
  rfl

/-- The function `addPart` writes back exactly the upserted buffer. -/
theorem getMessages_addPart (t : MessageTracker) (sid mid pid : String)
    (part : ChunkMessagePart) (now : Nat) :
    getMessages (addPart t sid mid pid part now) sid
      = if (getMessages t sid).any (fun m => m.id = mid)
        then replaceFirst (fun m => m.id = mid)
          (fun m => { m with parts := upsertPart pid part m.parts }) (getMessages t sid)
        else getMessages t sid ++ [⟨mid, .assistant, [{ part with pId := some pid }], now⟩] := by
  unfold addPart
  by_cases h : (getMessages t sid).any (fun m => m.id = mid)
  · rw [if_pos h, if_pos h]
    show (mapGet (mapSet t.sessions sid _) sid).getD [] = _
    rw [mapGet_mapSet]
    rfl
  · rw [if_neg h, if_neg h]
    show (mapGet (mapSet t.sessions sid _) sid).getD [] = _
    rw [mapGet_mapSet]
    rfl

theorem any_id_iff_mem (l : List ChunkMessage) (x : String) :
    l.any (fun m => m.id = x) = true ↔ x ∈ l.map (fun m => m.id) := by
  simp [List.any_eq_true, List.mem_map]

theorem any_pid_iff_mem (l : List ChunkMessagePart) (x : Option String) :
    l.any (fun p => p.pId = x) = true ↔ x ∈ l.map (fun p => p.pId) := by
  simp [List.any_eq_true, List.mem_map]

/-- The `_partId` sequence after a part upsert: unchanged when the id was
already present, extended by it otherwise. -/
theorem upsertPart_pIds (pid : String) (part : ChunkMessagePart)
    (ps : List ChunkMessagePart) :
    (upsertPart pid part ps).map (fun p => p.pId)
      = if (some pid) ∈ ps.map (fun p => p.pId)
        then ps.map (fun p => p.pId)
        else ps.map (fun p => p.pId) ++ [some pid] := by
  unfold upsertPart
  by_cases h : ps.any (fun p => p.pId = some pid)
  · rw [if_pos h, if_pos ((any_pid_iff_mem ps (some pid)).mp h)]
    refine map_replaceFirst _ _ _ ps ?_
    intro x hx
    simp only [decide_eq_true_eq] at hx
    simp [hx]
  · rw [if_neg h, if_neg (fun hm => h ((any_pid_iff_mem ps (some pid)).mpr hm))]
    simp

/-- C9: `trackMessage` upserts by message id — an existing id is replaced
in place at its original position and a new id is appended — so the
id sequence of the buffer reflects first-insert order and is stable across
upserts; `addPart` does the same for the message list and, via the
`_partId` key, for the part list within the addressed message. -/
theorem tracker_upsert_order :
    (∀ (t : MessageTracker) (sid : String) (msg : ChunkMessage),
      (getMessages t sid).any (fun m => m.id = msg.id) = true →
      ∃ i old, (getMessages t sid).get? i = some old ∧ old.id = msg.id ∧
        getMessages (trackMessage t sid msg) sid = (getMessages t sid).set i msg)
    ∧ (∀ (t : MessageTracker) (sid : String) (msg : ChunkMessage),
        (getMessages t sid).any (fun m => m.id = msg.id) = false →
        getMessages (trackMessage t sid msg) sid = getMessages t sid ++ [msg])
    ∧ (∀ (t : MessageTracker) (sid : String) (msg : ChunkMessage),
        (getMessages (trackMessage t sid msg) sid).map (fun m => m.id)
          = if msg.id ∈ (getMessages t sid).map (fun m => m.id)
            then (getMessages t sid).map (fun m => m.id)
            else (getMessages t sid).map (fun m => m.id) ++ [msg.id])
    ∧ (∀ (t : MessageTracker) (sid mid pid : String) (part : ChunkMessagePart) (now : Nat),
        (getMessages (addPart t sid mid pid part now) sid).map (fun m => m.id)
          = if mid ∈ (getMessages t sid).map (fun m => m.id)
            then (getMessages t sid).map (fun m => m.id)
            else (getMessages t sid).map (fun m => m.id) ++ [mid])
    ∧ (∀ (t : MessageTracker) (sid mid pid : String) (part : ChunkMessagePart) (now : Nat),
        ((getMessages (addPart t sid mid pid part now) sid).find?
            (fun m => m.id = mid)).map (fun m => m.parts.map (fun p => p.pId))
          = some (let prev := (((getMessages t sid).find? (fun m => m.id = mid)).map
                (fun m => m.parts.map (fun p => p.pId))).getD [];
              if (some pid) ∈ prev then prev else prev ++ [some pid])) := by
  refine ⟨?_, ?_, ?_, ?_, ?_⟩
  · intro t sid msg h
    obtain ⟨i, old, hg, hp, he⟩ := replaceFirst_eq_set
      (fun m => m.id = msg.id) (fun _ => msg) (getMessages t sid) h
    refine ⟨i, old, hg, by simpa using hp, ?_⟩
    rw [getMessages_trackMessage, if_pos h, he]
  · intro t sid msg h
    rw [getMessages_trackMessage, if_neg (by simp [h])]
  · intro t sid msg
    rw [getMessages_trackMessage]
    by_cases h : (getMessages t sid).any (fun m => m.id = msg.id)
    · rw [if_pos h, if_pos ((any_id_iff_mem _ _).mp h)]
      refine map_replaceFirst _ _ _ _ ?_
      intro x hx
      simp only [decide_eq_true_eq] at hx
      simp [hx]
    · rw [if_neg h, if_neg (fun hm => h ((any_id_iff_mem _ _).mpr hm))]
      simp
  · intro t sid mid pid part now
    rw [getMessages_addPart]
    by_cases h : (getMessages t sid).any (fun m => m.id = mid)
    · rw [if_pos h, if_pos ((any_id_iff_mem _ _).mp h)]
      refine map_replaceFirst _ _ _ _ ?_
      intro x hx
      rfl
    · rw [if_neg h, if_neg (fun hm => h ((any_id_iff_mem _ _).mpr hm))]
      simp
  · intro t sid mid pid part now
    rw [getMessages_addPart]
    by_cases h : (getMessages t sid).any (fun m => m.id = mid)
    · rw [if_pos h]
      have hfind := find?_replaceFirst (fun m => m.id = mid)
        (fun m => { m with parts := upsertPart pid part m.parts }) (getMessages t sid)
        (fun x hx => hx)
      rw [hfind]
      obtain ⟨m0, hm0⟩ := Option.isSome_iff_exists.mp
        (by
          rw [List.find?_isSome]
          obtain ⟨x, hx, hpx⟩ := List.any_eq_true.mp h
          exact ⟨x, hx, hpx⟩)
      rw [hm0]
      have hid0 : m0.id = mid := by simpa using List.find?_some hm0
      simp only [Option.map_some', Option.getD_some]
      rw [upsertPart_pIds]
    · rw [if_neg h]
      have hnone : (getMessages t sid).find? (fun m => m.id = mid) = none := by
        rw [List.find?_eq_none]
        intro x hx
        simp only [decide_eq_true_eq]
        intro he
        exact absurd (List.any_eq_true.mpr ⟨x, hx, by simp [he]⟩) h
      rw [find?_append_single, hnone]
      simp

/-- A concrete tracked message and an upsert re-emission with the same id. -/
def wMsgA : ChunkMessage := ⟨("m1"), .user, [⟨.text, some ("Hello"), none, none, none⟩], 1⟩

/-- The streaming re-emission of `wMsgA` with grown content. -/
def wMsgA2 : ChunkMessage :=
  ⟨("m1"), .user, [⟨.text, some ("Hello world"), none, none, none⟩], 2⟩

/-- A second message with a fresh id. -/
def wMsgB : ChunkMessage := ⟨("m2"), .assistant, [], 3⟩

/-- A tracker holding `wMsgA` in session `s`. -/
def wTracker : MessageTracker := trackMessage emptyTracker ("s") wMsgA

/-- Witness for `tracker_upsert_order` on a concrete session. -/
theorem tracker_upsert_order_witness :
    (∃ i old, (getMessages wTracker ("s")).get? i = some old ∧ old.id = wMsgA2.id ∧
        getMessages (trackMessage wTracker ("s") wMsgA2) ("s")
          = (getMessages wTracker ("s")).set i wMsgA2)
    ∧ getMessages (trackMessage wTracker ("s") wMsgB) ("s")
        = getMessages wTracker ("s") ++ [wMsgB]
    ∧ ((getMessages (addPart wTracker ("s") ("m1") ("p1")
            ⟨.text, some ("x"), none, none, none⟩ 5) ("s")).find?
          (fun m => m.id = ("m1"))).map (fun m => m.parts.map (fun p => p.pId))
        = some (let prev := (((getMessages wTracker ("s")).find?
              (fun m => m.id = ("m1"))).map
              (fun m => m.parts.map (fun p => p.pId))).getD [];
            if (some ("p1")) ∈ prev then prev else prev ++ [some ("p1")]) :=
  ⟨tracker_upsert_order.1 wTracker ("s") wMsgA2 (by decide),
   tracker_upsert_order.2.1 wTracker ("s") wMsgB (by decide),
   tracker_upsert_order.2.2.2.2 wTracker ("s") ("m1") ("p1")
     ⟨.text, some ("x"), none, none, none⟩ 5⟩

/-- JavaScript `Set` insertion-order deduplication (`Array.from(new Set)`). -/
def dedupAux : List String → List String → List String
  | _, [] => []
  | seen, x :: xs =>
    if seen.contains x then dedupAux seen xs
    else x :: dedupAux (seen ++ [x]) xs

/-- First-occurrence order deduplication. -/
def dedupKeepFirst (l : List String) : List String := dedupAux [] l

/-- Embeds `ChunkRepository.create`: insert a new active chunk row (nulls for
`child_refs`, `finalized_at`, `compacted_at`) and return the row. -/
def chunkRepoCreate (db : ChunkDb) (sessionId : String) (content : ChunkContent)
    (parentId : Option String) (depth : Nat) (summary : Option String)
    (id : String) (now : Nat) : ChunkDb × ChunkRow :=
  let row : ChunkRow :=
    ⟨id, sessionId, parentId, depth, none, content, summary, .active, now, none, none⟩
  (db ++ [row], row)

/-- Input of `ChunkRepository.update`; a `some` field is a provided field. -/
structure UpdateChunkInput where
  content : Option ChunkContent := none
  summary : Option String := none
  status : Option ChunkStatus := none
  childRefs : Option (List String) := none
  finalizedAt : Option Nat := none
  compactedAt : Option Nat := none
deriving DecidableEq, Repr

/-- Apply the dynamic `UPDATE chunks SET ...` of the provided fields. -/
def applyChunkUpdate (inp : UpdateChunkInput) (r : ChunkRow) : ChunkRow :=
  { r with content := inp.content.getD r.content
           summary := if inp.summary.isSome then inp.summary else r.summary
           status := inp.status.getD r.status
           childRefs := if inp.childRefs.isSome then inp.childRefs else r.childRefs
           finalizedAt := if inp.finalizedAt.isSome then inp.finalizedAt else r.finalizedAt
           compactedAt := if inp.compactedAt.isSome then inp.compactedAt else r.compactedAt }

/-- Embeds `ChunkRepository.update`: absent row gives `none`; an input providing
no fields short-circuits to the existing row; otherwise run the dynamic
update and re-read the row. -/
def chunkRepoUpdate (db : ChunkDb) (id : String) (inp : UpdateChunkInput) :
    ChunkDb × Option ChunkRow :=
  match lookupChunk db id with
  | none => (db, none)
  | some existing =>
    if inp = {} then (db, some existing)
    else
      let db2 := updateWhereId db id (applyChunkUpdate inp)
      (db2, lookupChunk db2 id)

/-- Embeds `ChunkService.finalize` (src/chunks/index.ts): read the tracked
buffer; derive `tools_used` / `files_modified` from the parts (JavaScript
truthiness: empty strings do not count); persist a chunk whose messages
carry the parts verbatim; set `finalized_at`; clear the session and record
the new current chunk id.  The minted chunk id and both `Date.now()`
readings collapse to the `chunkId` and `now` parameters. -/
def finalize (t : MessageTracker) (db : ChunkDb) (sessionId : String)
    (chunkId : String) (now : Nat) : MessageTracker × ChunkDb × Option ChunkRow :=
  let messages := getMessages t sessionId
  if messages.isEmpty then (t, db, none)
  else
    let toolsUsed := dedupKeepFirst (messages.flatMap (fun m => m.parts.filterMap
      (fun p => if p.kind = .tool then
          match p.tool with
          | some s => if s = ("") then none else some s
          | none => none
        else none)))
    let filesModified := dedupKeepFirst (messages.flatMap (fun m => m.parts.filterMap
      (fun p => if p.kind = .file then
          match p.text with
          | some s => if s = ("") then none else some s
          | none => none
        else none)))
    let content : ChunkContent :=
      ⟨messages.map (fun m => ⟨m.id, m.role, m.parts, m.timestamp⟩),
       ⟨if toolsUsed.isEmpty then none else some toolsUsed,
        if filesModified.isEmpty then none else some filesModified⟩⟩
    let created := chunkRepoCreate db sessionId content none 0 none chunkId now
    let updated := chunkRepoUpdate created.1 created.2.id { finalizedAt := some now }
    let t1 := clearSession t sessionId
    let t2 := match updated.2 with
      | some c => setCurrentChunkId t1 sessionId c.id
      | none => t1
    (t2, updated.1, updated.2)

/-- C4 (refuted by evaluation): after `addPart` has buffered one part
under `_partId = "prt_1"`, `finalize` persists the chunk with that private
id still inside the stored content — `finalize` copies `m.parts` verbatim
and `JSON.stringify` keeps the `_partId` key, contradicting the
specification sentence that this id is not persisted. -/
theorem finalize_persists_partId :
    ((lookupChunk (finalize (addPart emptyTracker ("s") ("m1") ("prt_1")
          ⟨.text, some ("hello"), none, none, none⟩ 3) [] ("s") ("ch_X") 9).2.1
        ("ch_X")).map
      (fun r => r.content.messages.map (fun m => m.parts.map (fun p => p.pId))))
      = some [[some ("prt_1")]] := by
  decide

/-- Memory category (`CHECK(type IN ...)`). -/
inductive MemoryType where
  | preference
  | pattern
  | gotcha
  | fact
  | learned
deriving DecidableEq, Repr

/-- Memory provenance. -/
inductive MemorySource where
  | user
  | compaction
  | auto
deriving DecidableEq, Repr

/-- A row of the `memories` table. -/
structure MemoryRow where
  id : String
  content : String
  type : MemoryType
  tags : Option (List String)
  source : MemorySource
  createdAt : Nat
  updatedAt : Option Nat
deriving DecidableEq, Repr

/-- The `memories` table, in rowid order. -/
abbrev MemoryDb := List MemoryRow

/-- Embeds `SELECT * FROM memories WHERE id = ?`. -/
def lookupMemory (db : MemoryDb) (id : String) : Option MemoryRow :=
  db.find? (fun r => r.id = id)

/-- Input of `MemoryRepository.update`; a `some` field is a provided
field. -/
structure UpdateMemoryInput where
  content : Option String := none
  type : Option MemoryType := none
  tags : Option (List String) := none
deriving DecidableEq, Repr

/-- One collected `column = $param` fragment of the dynamic update. -/
inductive UpdField where
  | content
  | type
  | tags
  | updatedAt
deriving DecidableEq, Repr

/-- The `updates` array as the source builds it: one fragment per provided
field, then — before any emptiness check — the unconditional
`updated_at = $updatedAt` push. -/
def collectUpdates (inp : UpdateMemoryInput) : List UpdField :=
  ((if inp.content.isSome then [UpdField.content] else [])
      ++ (if inp.type.isSome then [UpdField.type] else [])
      ++ (if inp.tags.isSome then [UpdField.tags] else []))
    ++ [UpdField.updatedAt]

/-- Apply one collected fragment to a row. -/
def applyUpdField (inp : UpdateMemoryInput) (now : Nat) (r : MemoryRow) :
    UpdField → MemoryRow
  | .content => { r with content := inp.content.getD r.content }
  | .type => { r with type := inp.type.getD r.type }
  | .tags => { r with tags := if inp.tags.isSome then inp.tags else r.tags }
  | .updatedAt => { r with updatedAt := some now }

/-- Shallow embedding of `MemoryRepository.update`: missing row gives
`none`; otherwise build the dynamic update (which always contains the
`updated_at` fragment, so the `updates.length === 0` short-circuit below
it can never fire), run it, and re-read the row. -/
def memoryRepoUpdate (db : MemoryDb) (id : String) (inp : UpdateMemoryInput)
    (now : Nat) : MemoryDb × Option MemoryRow :=
  match lookupMemory db id with
  | none => (db, none)
  | some existing =>
    let updates := collectUpdates inp
    if updates.length = 0 then (db, some existing)
    else
      let db2 := db.map (fun r =>
        if r.id = id then updates.foldl (applyUpdField inp now) r else r)
      (db2, lookupMemory db2 id)

/-- C3 (refuted by evaluation): updating an existing memory with an input
that provides none of `content`, `type`, `tags` still rewrites the stored
row, setting `updated_at = now` — the unconditional `updated_at` push
precedes the emptiness check, so the documented no-op branch is dead code.
Here a row with `updated_at = null` ends up with `updated_at = 100`. -/
theorem memoryRepoUpdate_empty_input_mutates :
    memoryRepoUpdate [⟨("mem_1"), ("c"), .fact, none, .user, 5, none⟩] ("mem_1") {} 100
      = ([⟨("mem_1"), ("c"), .fact, none, .user, 5, some 100⟩],
         some ⟨("mem_1"), ("c"), .fact, none, .user, 5, some 100⟩)
    ∧ memoryRepoUpdate [⟨("mem_1"), ("c"), .fact, none, .user, 5, none⟩] ("mem_1") {} 100
      ≠ ([⟨("mem_1"), ("c"), .fact, none, .user, 5, none⟩],
         some ⟨("mem_1"), ("c"), .fact, none, .user, 5, none⟩) := by
  refine ⟨by decide, by decide⟩

/-- JavaScript `\w`: ASCII letters, digits and underscore. -/
def wordChar (c : Char) : Bool :=
  (decide ('a' ≤ c) && decide (c ≤ 'z')) || (decide ('A' ≤ c) && decide (c ≤ 'Z'))
    || (decide ('0' ≤ c) && decide (c ≤ '9')) || decide (c = '_')

/-- Scanner for `query.match(/\b\w+\b/g)`: maximal runs of word
characters, built with a reversed-run accumulator. -/
def runsAux : List Char → List Char → List (List Char)
  | acc, [] => if acc.isEmpty then [] else [acc.reverse]
  | acc, c :: rest =>
    if wordChar c then runsAux (c :: acc) rest
    else if acc.isEmpty then runsAux [] rest
    else acc.reverse :: runsAux [] rest

/-- The word runs of a query (`match` returning `null` becomes `[]`). -/
def jsWordRuns (s : String) : List String :=
  (runsAux [] s.data).map (fun cs => String.mk cs)

/-- Modelled from the spec: "extract all maximal runs of word characters"
as splitting on non-word characters and discarding empty segments. -/
def splitRuns (s : String) : List String :=
  ((s.data.splitOnP (fun c => ! wordChar c)).filter
    (fun r => ! r.isEmpty)).map (fun cs => String.mk cs)

/-- The reserved FTS5 operator words. -/
def ftsOperators : List String := [("AND"), ("OR"), ("NOT"), ("NEAR")]

/-- Embeds `toUpperCase` on the character sequence. -/
def upperStr (s : String) : String := String.mk (s.data.map Char.toUpper)

/-- The filter of `escapeFtsQuery`: at least 2 characters and not an
operator word after upper-casing. -/
def isValidFtsWord (w : String) : Bool :=
  decide (2 ≤ w.length) && ! (ftsOperators.contains (upperStr w))

/-- Case-insensitive string equality. -/
def eqCI (a b : String) : Bool := upperStr a == upperStr b

/-- Modelled from the spec: "drop runs shorter than 2 characters, drop
runs matching the reserved operator words case-insensitively". -/
def specValidWord (w : String) : Bool :=
  decide (2 ≤ w.length)
    && ! (eqCI w ("AND") || eqCI w ("OR") || eqCI w ("NOT") || eqCI w ("NEAR"))

/-- Shallow embedding of `escapeFtsQuery` (src/memory/search.ts). -/
def escapeFtsQuery (query : String) : String :=
  let words := jsWordRuns query
  if words.isEmpty then ("")
  else
    let validWords := words.filter isValidFtsWord
    if validWords.isEmpty then ("")
    else String.intercalate (" OR ") (validWords.map (fun w => ("\"") ++ w ++ ("\"")))

/-- Modelled from the spec: quote each remaining run and join with
`" OR "`; empty when nothing remains. -/
def specCompile (query : String) : String :=
  let kept := (splitRuns query).filter specValidWord
  if kept.isEmpty then ("")
  else String.intercalate (" OR ") (kept.map (fun w => ("\"") ++ w ++ ("\"")))

/-- Shallow embedding of `searchMemories`: the ranked SQL query (join,
bm25 rank, optional type filter, limit) is abstracted by `exec`, called
only with the compiled match expression. -/
def searchMemories {ρ : Type} (exec : String → Option MemoryType → Nat → List ρ)
    (query : String) (type : Option MemoryType) (limit : Nat) : List ρ :=
  if query = ("") then []
  else
    let escapedQuery := escapeFtsQuery query
    if escapedQuery = ("") then [] else exec escapedQuery type limit

/-- Shallow embedding of `ChunkService.search` (src/chunks/index.ts),
whose body re-implements the same tokenizer inline; `exec` abstracts the
ranked SQL query with optional session and minimum-depth filters. -/
def chunkServiceSearch {ρ : Type}
    (exec : String → Option String → Option Nat → Nat → List ρ)
    (query : String) (sessionId : Option String) (depth : Option Nat)
    (limit : Nat) : List ρ :=
  if query = ("") then []
  else if query.trim = ("") then []
  else
    let words := jsWordRuns query
    if words.isEmpty then []
    else
      let validWords := words.filter isValidFtsWord
      if validWords.isEmpty then []
      else
        exec (String.intercalate (" OR ")
          (validWords.map (fun w => ("\"") ++ w ++ ("\"")))) sessionId depth limit

/-- The scanner agrees with split-and-drop-empties, for every accumulator
state. -/
theorem runsAux_spec : ∀ (l : List Char),
    (runsAux [] l
      = (l.splitOnP (fun c => ! wordChar c)).filter (fun r => ! r.isEmpty))
    ∧ ∀ (a : Char) (acc : List Char),
        runsAux (a :: acc) l
          = ((a :: acc).reverse ++ (l.splitOnP (fun c => ! wordChar c)).headI)
            :: ((l.splitOnP (fun c => ! wordChar c)).tail.filter
                (fun r => ! r.isEmpty)) := by
  intro l
  induction l with
  | nil =>
    constructor
    · simp [runsAux, List.splitOnP_nil]
    · intro a acc
      simp [runsAux, List.splitOnP_nil]
  | cons c rest ih =>
    obtain ⟨s0, ss, hS⟩ := List.exists_cons_of_ne_nil
      (List.splitOnP_ne_nil (fun c => ! wordChar c) rest)
    by_cases wc : wordChar c
    · have hP : (! wordChar c) = false := by simp [wc]
      have hsplit : (c :: rest).splitOnP (fun c => ! wordChar c)
          = (c :: s0) :: ss := by
        rw [List.splitOnP_cons, hP, hS]
        rfl
      constructor
      · have h1 : runsAux [] (c :: rest) = runsAux [c] rest := by
          simp [runsAux, wc]
        rw [h1, (ih.2 c []), hsplit, hS]
        simp
      · intro a acc
        have h1 : runsAux (a :: acc) (c :: rest) = runsAux (c :: a :: acc) rest := by
          simp [runsAux, wc]
        rw [h1, (ih.2 c (a :: acc)), hsplit, hS]
        simp
    · have hP : (! wordChar c) = true := by simp [wc]
      have hsplit : (c :: rest).splitOnP (fun c => ! wordChar c)
          = [] :: rest.splitOnP (fun c => ! wordChar c) := by
        rw [List.splitOnP_cons, hP]
        simp
      constructor
      · have h1 : runsAux [] (c :: rest) = runsAux [] rest := by
          simp [runsAux, wc]
        rw [h1, hsplit, ih.1]
        simp
      · intro a acc
        have h1 : runsAux (a :: acc) (c :: rest)
            = (a :: acc).reverse :: runsAux [] rest := by
          simp [runsAux, wc]
        rw [h1, hsplit, ih.1]
        simp

theorem jsWordRuns_eq_splitRuns (s : String) : jsWordRuns s = splitRuns s :=
  congrArg (List.map (fun cs => String.mk cs)) (runsAux_spec s.data).1

theorem isValidFtsWord_eq_spec (w : String) : isValidFtsWord w = specValidWord w := by
  have hAND : upperStr ("AND") = ("AND") := by decide
  have hOR : upperStr ("OR") = ("OR") := by decide
  have hNOT : upperStr ("NOT") = ("NOT") := by decide
  have hNEAR : upperStr ("NEAR") = ("NEAR") := by decide
  unfold isValidFtsWord specValidWord eqCI ftsOperators
  rw [hAND, hOR, hNOT, hNEAR]
  congr 1
  simp only [List.contains, List.elem_cons, List.elem_nil]
  cases hA : (upperStr w == ("AND")) <;> cases hB : (upperStr w == ("OR")) <;>
    cases hC : (upperStr w == ("NOT")) <;> cases hD : (upperStr w == ("NEAR")) <;>
      simp [hA, hB, hC, hD]

/-- C5: the search compiler emits exactly the expression the specification
describes — split the text into maximal `\w` runs, drop runs shorter than
2 characters and case-insensitive operator words, double-quote the rest
and join with `" OR "` — and when no runs survive, memory search and chunk
search return the empty result set for every possible query executor,
i.e. without executing any database query. -/
theorem escapeFtsQuery_spec :
    (∀ q : String, escapeFtsQuery q = specCompile q)
    ∧ (∀ (ρ : Type) (exec : String → Option MemoryType → Nat → List ρ)
        (q : String) (ty : Option MemoryType) (lim : Nat),
        (jsWordRuns q).filter isValidFtsWord = [] →
        searchMemories exec q ty lim = [])
    ∧ (∀ (ρ : Type) (exec : String → Option String → Option Nat → Nat → List ρ)
        (q : String) (sid : Option String) (dep : Option Nat) (lim : Nat),
        (jsWordRuns q).filter isValidFtsWord = [] →
        chunkServiceSearch exec q sid dep lim = []) := by
  have hfilter : ∀ q : String, (jsWordRuns q).filter isValidFtsWord
      = (splitRuns q).filter specValidWord := by
    intro q
    rw [jsWordRuns_eq_splitRuns]
    exact List.filter_congr (fun w _ => isValidFtsWord_eq_spec w)
  have hesc : ∀ q : String, escapeFtsQuery q = specCompile q := by
    intro q
    unfold escapeFtsQuery specCompile
    by_cases hw : (jsWordRuns q).isEmpty
    · rw [if_pos hw]
      have hnil : jsWordRuns q = [] := by
        cases h : jsWordRuns q
        · rfl
        · rw [h] at hw
          cases hw
      have hkept : (splitRuns q).filter specValidWord = [] := by
        rw [← hfilter, hnil]
        rfl
      rw [if_pos (by simp [hkept])]
    · rw [if_neg hw]
      by_cases hv : ((jsWordRuns q).filter isValidFtsWord).isEmpty
      · rw [if_pos hv, if_pos (by rw [← hfilter]; exact hv)]
      · rw [if_neg hv, if_neg (by rw [← hfilter]; exact hv), hfilter]
  have hescnil : ∀ q : String, (jsWordRuns q).filter isValidFtsWord = [] →
      escapeFtsQuery q = ("") := by
    intro q hempty
    unfold escapeFtsQuery
    by_cases hw : (jsWordRuns q).isEmpty
    · rw [if_pos hw]
    · rw [if_neg hw, if_pos (by simp [hempty])]
  refine ⟨hesc, ?_, ?_⟩
  · intro ρ exec q ty lim hempty
    unfold searchMemories
    by_cases hq : q = ("")
    · rw [if_pos hq]
    · rw [if_neg hq]
      simp only [hescnil q hempty, if_pos]
  · intro ρ exec q sid dep lim hempty
    unfold chunkServiceSearch
    by_cases hq : q = ("")
    · rw [if_pos hq]
    · rw [if_neg hq]
      by_cases ht : q.trim = ("")
      · rw [if_pos ht]
      · rw [if_neg ht]
        by_cases hw : (jsWordRuns q).isEmpty
        · rw [if_pos hw]
        · rw [if_neg hw, if_pos (by simp [hempty])]

/-- Witness for `escapeFtsQuery_spec` at concrete queries with a
non-trivial executor: `"a !"` tokenizes to the single one-letter run `a`,
which is dropped, so both searches return `[]` although the executor
would return a row. -/
theorem escapeFtsQuery_spec_witness :
    escapeFtsQuery ("Result<T, E> OR x") = specCompile ("Result<T, E> OR x")
    ∧ searchMemories (fun _ _ _ => [5]) ("a !") none 20 = []
    ∧ chunkServiceSearch (fun _ _ _ _ => [7]) ("a !") none none 20 = [] :=
  ⟨escapeFtsQuery_spec.1 ("Result<T, E> OR x"),
   escapeFtsQuery_spec.2.1 Nat (fun _ _ _ => [5]) ("a !") none 20 (by decide),
   escapeFtsQuery_spec.2.2 Nat (fun _ _ _ _ => [7]) ("a !") none none 20 (by decide)⟩

/-- The backtick character. -/
def tick : Char := Char.ofNat 96

/-- The apostrophe character. -/
def apos : Char := Char.ofNat 39

/-- Locate the first occurrence of three consecutive backticks: returns
the text before it and the text after it. -/
def findTriple : List Char → Option (List Char × List Char)
  | a :: b :: c :: rest =>
    if a = tick && b = tick && c = tick then some ([], rest)
    else (findTriple (b :: c :: rest)).map (fun p => (a :: p.1, p.2))
  | _ => none

/-- Fueled global replacement of the lazy fenced-block regex
`/```[\s\S]*?```/g` by the empty string: each match runs from a `` ``` ``
to the next one; an unclosed opener matches nothing. -/
def removeFencedAux : Nat → List Char → List Char
  | 0, l => l
  | fuel + 1, l =>
    match findTriple l with
    | none => l
    | some (pre, rest) =>
      match findTriple rest with
      | none => l
      | some (_, rest2) => pre ++ removeFencedAux fuel rest2

/-- Embeds the call of replace with CODE_BLOCK_PATTERN. -/
def removeFenced (l : List Char) : List Char := removeFencedAux l.length l

/-- Fueled global replacement of the inline-code regex `` /`[^`]+`/g `` by
the empty string: a backtick, at least one non-backtick, a backtick. -/
def removeInlineAux : Nat → List Char → List Char
  | 0, l => l
  | fuel + 1, l =>
    match l with
    | [] => []
    | c :: rest =>
      if c = tick then
        match rest.span (fun x => ! (x = tick)) with
        | ([], _) => c :: removeInlineAux fuel rest
        | (_, _ :: rest2) => removeInlineAux fuel rest2
        | (mid, []) => c :: mid
      else c :: removeInlineAux fuel rest

/-- Embeds the call of replace with INLINE_CODE_PATTERN. -/
def removeInline (l : List Char) : List Char := removeInlineAux l.length l

/-- Embeds `removeCodeBlocks` (src/memory/search.ts): fenced blocks first, then
inline spans. -/
def removeCodeBlocks (text : String) : String :=
  String.mk (removeInline (removeFenced text.data))

/-- Case-insensitive prefix test (the `i` flag restricted to the keyword
characters). -/
def ciStarts : List Char → List Char → Bool
  | [], _ => true
  | _ :: _, [] => false
  | k :: ks, c :: cs => decide (k.toLower = c.toLower) && ciStarts ks cs

/-- Whether the character at position `p` is a word character
(out-of-range counts as non-word). -/
def isWordAt (text : List Char) (p : Nat) : Bool :=
  match text.drop p with
  | [] => false
  | c :: _ => wordChar c

/-- The regex word boundary `\b` at position `p`. -/
def boundaryAt (text : List Char) (p : Nat) : Bool :=
  (if p = 0 then false else isWordAt text (p - 1)) != isWordAt text p

/-- A match of `\b<keyword>\b` starting at position `i`. -/
def kwMatchAt (kw : List Char) (text : List Char) (i : Nat) : Bool :=
  ciStarts kw (text.drop i) && boundaryAt text i && boundaryAt text (i + kw.length)

/-- Embeds `pattern.test`: some alternative matches at some position. -/
def kwMatch (kw : String) (text : List Char) : Bool :=
  (List.range (text.length + 1)).any (fun i => kwMatchAt kw.data text i)

/-- The pattern built by `buildKeywordPattern` applied as a test; an empty
keyword list never matches (`/(?!)/`). -/
def buildKeywordTest (keywords : List String) (text : List Char) : Bool :=
  keywords.any (fun k => kwMatch k text)

/-- The default trigger keywords (src/memory/search.ts). -/
def DEFAULT_KEYWORDS : List String :=
  [("remember"), ("memorize"), ("save this"), ("note this"), ("keep in mind"),
   ("don") ++ String.mk [apos] ++ ("t forget"), ("learn this"), ("store this"),
   ("record this"), ("make a note"), ("take note"), ("jot down"),
   ("commit to memory"), ("never forget"), ("always remember")]

/-- Embeds `detectMemoryKeyword`: strip code, then test the combined default and
custom keywords case-insensitively with word boundaries. -/
def detectMemoryKeyword (text : String) (customKeywords : Option (List String)) : Bool :=
  buildKeywordTest (DEFAULT_KEYWORDS ++ customKeywords.getD [])
    (removeCodeBlocks text).data

/-- All case-insensitive occurrence positions of `needle` in `hay`. -/
def subOccurrences (needle hay : List Char) : List Nat :=
  (List.range (hay.length + 1)).filter (fun i => ciStarts needle (hay.drop i))

theorem findTriple_cons_ne (a : Char) (l : List Char) (ha : ¬ (a = tick)) :
    findTriple (a :: l) = (findTriple l).map (fun p => (a :: p.1, p.2)) := by
  match l with
  | [] => rfl
  | [_] => rfl
  | b :: c :: rest => simp [findTriple, ha]

theorem findTriple_none_of_free : ∀ (l : List Char), (∀ c ∈ l, ¬ (c = tick)) →
    findTriple l = none := by
  intro l
  induction l with
  | nil => intro _; rfl
  | cons a l ih =>
    intro h
    rw [findTriple_cons_ne a l (h a (by simp)), ih (fun c hc => h c (by simp [hc]))]
    rfl

theorem findTriple_free_front : ∀ (pre l : List Char), (∀ c ∈ pre, ¬ (c = tick)) →
    findTriple (pre ++ l) = (findTriple l).map (fun p => (pre ++ p.1, p.2)) := by
  intro pre
  induction pre with
  | nil =>
    intro l _
    show findTriple l = (findTriple l).map (fun p => ([] ++ p.1, p.2))
    cases findTriple l <;> rfl
  | cons a pre ih =>
    intro l h
    show findTriple (a :: (pre ++ l)) = _
    rw [findTriple_cons_ne a _ (h a (by simp)), ih l (fun c hc => h c (by simp [hc]))]
    cases findTriple l <;> rfl

theorem findTriple_ttt (rest : List Char) :
    findTriple (tick :: tick :: tick :: rest) = some ([], rest) := by
  simp [findTriple]

theorem findTriple_free_append (pre rest : List Char)
    (hpre : ∀ c ∈ pre, ¬ (c = tick)) :
    findTriple (pre ++ (tick :: tick :: tick :: rest)) = some (pre, rest) := by
  rw [findTriple_free_front pre _ hpre, findTriple_ttt]
  simp

theorem removeFencedAux_nofind (fuel : Nat) (l : List Char)
    (h : findTriple l = none) : removeFencedAux fuel l = l := by
  cases fuel with
  | zero => rfl
  | succ n => simp [removeFencedAux, h]

/-- Removing fenced blocks from a text built of one fence between
backtick-free segments keeps exactly the surrounding segments. -/
theorem removeFenced_block (pre k post : List Char)
    (hpre : ∀ c ∈ pre, ¬ (c = tick)) (hk : ∀ c ∈ k, ¬ (c = tick))
    (hpost : ∀ c ∈ post, ¬ (c = tick)) :
    removeFenced (pre ++ (tick :: tick :: tick :: (k ++ (tick :: tick :: tick :: post))))
      = pre ++ post := by
  unfold removeFenced
  cases hL : (pre ++ (tick :: tick :: tick :: (k ++ (tick :: tick :: tick :: post)))).length with
  | zero =>
    exfalso
    simp at hL
  | succ n =>
    show removeFencedAux (n + 1) _ = _
    simp only [removeFencedAux, findTriple_free_append pre _ hpre,
      findTriple_free_append k _ hk]
    rw [removeFencedAux_nofind n post (findTriple_none_of_free post hpost)]

theorem findTriple_tick_free_tail (post : List Char)
    (hpost : ∀ c ∈ post, ¬ (c = tick)) :
    findTriple (tick :: post) = none := by
  cases post with
  | nil => rfl
  | cons p1 rest =>
    cases rest with
    | nil => rfl
    | cons p2 rest2 =>
      have hp1 : ¬ (p1 = tick) := hpost p1 (by simp)
      have hfree : findTriple (p1 :: p2 :: rest2) = none :=
        findTriple_none_of_free _ hpost
      simp [findTriple, hp1, hfree]

/-- A text with exactly two isolated backticks contains no fenced block. -/
theorem findTriple_two_isolated (pre k post : List Char)
    (hpre : ∀ c ∈ pre, ¬ (c = tick)) (hk : ∀ c ∈ k, ¬ (c = tick))
    (hpost : ∀ c ∈ post, ¬ (c = tick)) (hkne : k ≠ []) :
    findTriple (pre ++ (tick :: (k ++ (tick :: post)))) = none := by
  rw [findTriple_free_front pre _ hpre]
  suffices h : findTriple (tick :: (k ++ (tick :: post))) = none by
    rw [h]
    rfl
  obtain ⟨k0, k', rfl⟩ := List.exists_cons_of_ne_nil hkne
  cases hsplit : k' ++ (tick :: post) with
  | nil => exact absurd hsplit (by simp)
  | cons c2 rest2 =>
    have hk0 : ¬ (k0 = tick) := hk k0 (by simp)
    show findTriple (tick :: k0 :: (k' ++ (tick :: post))) = none
    rw [hsplit]
    simp only [findTriple]
    rw [if_neg (by simp [hk0])]
    rw [← hsplit]
    have he : k0 :: (k' ++ (tick :: post)) = (k0 :: k') ++ (tick :: post) := rfl
    rw [he, findTriple_free_front (k0 :: k') _ hk,
      findTriple_tick_free_tail post hpost]
    rfl

theorem takeWhile_free_append (k : List Char) (rest : List Char)
    (hk : ∀ c ∈ k, ¬ (c = tick)) :
    ((k ++ (tick :: rest)).takeWhile (fun x => ! (x = tick)) = k
      ∧ (k ++ (tick :: rest)).dropWhile (fun x => ! (x = tick)) = tick :: rest) := by
  induction k with
  | nil => simp [List.takeWhile, List.dropWhile]
  | cons a k ih =>
    have ha : ¬ (a = tick) := hk a (by simp)
    obtain ⟨h1, h2⟩ := ih (fun c hc => hk c (by simp [hc]))
    constructor
    · simp [List.takeWhile, ha, h1]
    · simp [List.dropWhile, ha, h2]

theorem removeInlineAux_free : ∀ (fuel : Nat) (l : List Char), l.length ≤ fuel →
    (∀ c ∈ l, ¬ (c = tick)) → removeInlineAux fuel l = l := by
  intro fuel
  induction fuel with
  | zero => intro l _ _; rfl
  | succ n ih =>
    intro l hlen hfree
    cases l with
    | nil => rfl
    | cons c rest =>
      have hc : ¬ (c = tick) := hfree c (by simp)
      simp only [removeInlineAux, if_neg hc]
      rw [ih rest (by simpa using Nat.le_of_succ_le_succ (by simpa using hlen))
        (fun x hx => hfree x (by simp [hx]))]

/-- Removing inline spans from a text built of one span between
backtick-free segments keeps exactly the surrounding segments. -/
theorem removeInlineAux_span : ∀ (pre : List Char) (fuel : Nat) (k post : List Char),
    (pre ++ (tick :: (k ++ (tick :: post)))).length ≤ fuel →
    (∀ c ∈ pre, ¬ (c = tick)) → (∀ c ∈ k, ¬ (c = tick)) →
    (∀ c ∈ post, ¬ (c = tick)) → k ≠ [] →
    removeInlineAux fuel (pre ++ (tick :: (k ++ (tick :: post)))) = pre ++ post := by
  intro pre
  induction pre with
  | nil =>
    intro fuel k post hlen hpre hk hpost hkne
    cases fuel with
    | zero => simp at hlen
    | succ n =>
      obtain ⟨k0, k', rfl⟩ := List.exists_cons_of_ne_nil hkne
      obtain ⟨ht, hd⟩ := takeWhile_free_append (k0 :: k') post hk
      show removeInlineAux (n + 1) (tick :: ((k0 :: k') ++ (tick :: post))) = post
      simp only [removeInlineAux, if_pos rfl, List.span_eq_take_drop]
      rw [ht, hd]
      refine removeInlineAux_free n post ?_ hpost
      simp only [List.length_append, List.length_cons, List.nil_append] at hlen
      omega
  | cons a pre ih =>
    intro fuel k post hlen hpre hk hpost hkne
    cases fuel with
    | zero => simp at hlen
    | succ n =>
      have ha : ¬ (a = tick) := hpre a (by simp)
      show removeInlineAux (n + 1) (a :: (pre ++ (tick :: (k ++ (tick :: post))))) = _
      simp only [removeInlineAux, if_neg ha]
      rw [ih n k post
        (by
          simp only [List.length_append, List.length_cons] at hlen ⊢
          omega)
        (fun c hc => hpre c (by simp [hc])) hk hpost hkne]
      rfl

/-- C6 counterexample: the claim fails as universally stated.  In
`"remem``` + remember + ```ber "` the keyword `remember` occurs (position
8) only inside the fenced block, yet detection returns true — the global
replacement glues `remem` and `ber ` into a fresh whole-word occurrence.
Conversely in `"x```y```remember "` the keyword occurs (position 8, with
word boundaries on both sides) outside any code, yet detection returns
false — the removal glues `x` onto `remember`, destroying the left
boundary. -/
theorem detectMemoryKeyword_counterexample :
    (subOccurrences ("remember").data ("remem```remember```ber ").data = [8]
      ∧ detectMemoryKeyword ("remem```remember```ber ") none = true)
    ∧ (subOccurrences ("remember").data ("x```y```remember ").data = [8]
      ∧ boundaryAt ("x```y```remember ").data 8 = true
      ∧ boundaryAt ("x```y```remember ").data 16 = true
      ∧ detectMemoryKeyword ("x```y```remember ") none = false) := by
  refine ⟨⟨by decide, by decide⟩, by decide, by decide, by decide, by decide⟩

/-- C6 as amended: (a) a keyword sitting alone inside one fenced block
(or (b) one inline span) between backtick-free surroundings is not
detected, provided the concatenated surroundings themselves contain no
keyword match after the block is removed; (c) a backtick-free text in
which a default keyword occurs as a whole word (case-insensitively) is
detected; (d) detection is case-insensitive, and a keyword occurring only
as a proper substring of a longer word does not trigger. -/
theorem detectMemoryKeyword_amended :
    (∀ (k : String) (pre post : List Char),
      (∀ c ∈ pre, ¬ (c = tick)) → (∀ c ∈ k.data, ¬ (c = tick)) →
      (∀ c ∈ post, ¬ (c = tick)) →
      buildKeywordTest DEFAULT_KEYWORDS (pre ++ post) = false →
      detectMemoryKeyword (String.mk (pre ++ (tick :: tick :: tick ::
        (k.data ++ (tick :: tick :: tick :: post))))) none = false)
    ∧ (∀ (k : String) (pre post : List Char),
        (∀ c ∈ pre, ¬ (c = tick)) → (∀ c ∈ k.data, ¬ (c = tick)) →
        (∀ c ∈ post, ¬ (c = tick)) → k.data ≠ [] →
        buildKeywordTest DEFAULT_KEYWORDS (pre ++ post) = false →
        detectMemoryKeyword (String.mk (pre ++ (tick ::
          (k.data ++ (tick :: post))))) none = false)
    ∧ (∀ (k : String) (text : List Char), k ∈ DEFAULT_KEYWORDS →
        (∀ c ∈ text, ¬ (c = tick)) → kwMatch k text = true →
        detectMemoryKeyword (String.mk text) none = true)
    ∧ detectMemoryKeyword ("PLEASE REMEMBER THIS") none = true
    ∧ detectMemoryKeyword ("I remembered it") none = false := by
  have hdetect : ∀ l : List Char, detectMemoryKeyword (String.mk l) none
      = buildKeywordTest (DEFAULT_KEYWORDS ++ []) (removeInline (removeFenced l)) := by
    intro l
    rfl
  refine ⟨?_, ?_, ?_, by decide, by decide⟩
  · intro k pre post hpre hk hpost hnone
    rw [hdetect, removeFenced_block pre k.data post hpre hk hpost]
    have hfree : ∀ c ∈ pre ++ post, ¬ (c = tick) := by
      intro c hc
      rcases List.mem_append.mp hc with h | h
      · exact hpre c h
      · exact hpost c h
    rw [removeInline, removeInlineAux_free _ _ (Nat.le_refl _) hfree,
      List.append_nil]
    exact hnone
  · intro k pre post hpre hk hpost hkne hnone
    rw [hdetect, removeFenced,
      removeFencedAux_nofind _ _ (findTriple_two_isolated pre k.data post hpre hk hpost hkne),
      removeInline, removeInlineAux_span pre _ k.data post (Nat.le_refl _) hpre hk hpost hkne,
      List.append_nil]
    exact hnone
  · intro k text hkmem hfree hmatch
    rw [hdetect, removeFenced,
      removeFencedAux_nofind _ _ (findTriple_none_of_free text hfree),
      removeInline, removeInlineAux_free _ _ (Nat.le_refl _) hfree,
      List.append_nil]
    exact List.any_eq_true.mpr ⟨k, hkmem, hmatch⟩

/-- Witness for `detectMemoryKeyword_amended` at concrete texts. -/
theorem detectMemoryKeyword_amended_witness :
    detectMemoryKeyword (String.mk (("see ").data ++ (tick :: tick :: tick ::
        (("remember").data ++ (tick :: tick :: tick :: ("ok").data))))) none = false
    ∧ detectMemoryKeyword (String.mk (("see ").data ++ (tick ::
        (("remember").data ++ (tick :: ("ok").data))))) none = false
    ∧ detectMemoryKeyword (String.mk ("please remember this").data) none = true :=
  ⟨detectMemoryKeyword_amended.1 ("remember") ("see ").data ("ok").data
      (by decide) (by decide) (by decide) (by decide),
   detectMemoryKeyword_amended.2.1 ("remember") ("see ").data ("ok").data
      (by decide) (by decide) (by decide) (by decide) (by decide),
   detectMemoryKeyword_amended.2.2.1 ("remember") ("please remember this").data
      (by decide) (by decide) (by decide)⟩

end Memoir
